import Mathlib

/-!
# Sieve-based prime summation (`09-golang/hello.go`) and the WASM loader
(`09-embedding/golang/main.go`)

The Go function `sumOfPrimes` is embedded as explicit state passing over a
bounds-checked boolean table.  Every loop of the source is a recursive
function on a step budget (`fuel`), one unit per evaluation of the loop
condition; running out of budget is reported as `Fault.outOfFuel`, so that
termination is a theorem about the budget rather than an assumption.

Go's `int` is modelled by `Int`.  Each integer the source computes is passed
through `IntMode.norm`, which is the identity for unbounded integers,
two's-complement wrap-around for the 64-bit machine, or an overflow check.
The function `sumOfPrimes` is the 64-bit one; allocation fails for a negative
length and for a length above the limit of the runtime.
-/

set_option maxRecDepth 100000

namespace Hello

/-! ## Faults, integer modes and the table -/

/-- Ways in which a run can stop without returning a value. -/
inductive Fault where
  /-- Go panic of `make([]bool, hi)` when the length is negative. -/
  | negativeLen (len : Int)
  /-- Go panic of `make([]bool, hi)` when the length is above what the runtime allocates. -/
  | lenOutOfRange (len : Int)
  /-- Use of a slice that the heap does not hold (cannot arise from `make`). -/
  | noSlice (ref : Nat)
  /-- Go panic of `arr[idx]` when `idx` is outside `[0, len)`. -/
  | indexOutOfRange (idx : Int) (len : Nat)
  /-- An integer left the signed 64-bit range (reported in `IntMode.checked` only). -/
  | overflow (x : Int)
  /-- The step budget of a loop was used up (an artefact of the embedding). -/
  | outOfFuel
  deriving DecidableEq, Repr

/-- Wrap an integer into the signed 64-bit range `[-2^63, 2^63)`. -/
def wrap64 (x : Int) : Int := (x + 2 ^ 63) % 2 ^ 64 - 2 ^ 63

/-- Membership in the signed 64-bit range. -/
def inInt64 (x : Int) : Prop := -(2 ^ 63) ≤ x ∧ x < 2 ^ 63

instance (x : Int) : Decidable (inInt64 x) := by
  unfold inInt64; infer_instance

/-- How the results of integer operations are represented. -/
inductive IntMode where
  /-- Unbounded mathematical integers. -/
  | exact
  /-- Signed 64-bit integers with silent wrap-around (Go's `int` on a 64-bit target). -/
  | wrap
  /-- Signed 64-bit integers where leaving the range is a fault. -/
  | checked
  deriving DecidableEq, Repr

/-- Result of an integer operation whose mathematical value is `x`. -/
def IntMode.norm : IntMode → Int → Except Fault Int
  | .exact, x => .ok x
  | .wrap, x => .ok (wrap64 x)
  | .checked, x => if inInt64 x then .ok x else .error (.overflow x)

/-- One access to the table. -/
inductive Access where
  | read (idx : Int)
  | write (idx : Int) (val : Bool)
  deriving DecidableEq, Repr

/-- Index used by an access. -/
def Access.idx : Access → Int
  | .read i => i
  | .write i _ => i

/-- The slice `arr` together with the accesses made so far, newest first. -/
structure Table where
  cells : Array Bool
  log : List Access
  deriving DecidableEq, Repr

/-- Largest size in bytes of one allocation of the Go runtime on a 64-bit target
(`maxAlloc`, which is `2^48`).  A `bool` takes one byte, so it is also the largest length
of a `[]bool`. -/
def maxAlloc : Nat := 281474976710656

/-- Model of `make([]bool, hi)`: a zeroed slice of length `hi`, or the panic
`makeslice: len out of range` for `hi < 0` and for `hi` above `maxAlloc`. -/
def make (hi : Int) : Except Fault Table :=
  if hi < 0 then .error (.negativeLen hi)
  else if (maxAlloc : Int) < hi then .error (.lenOutOfRange hi)
  else .ok { cells := mkArray hi.toNat false, log := [] }

/-- Model of the read `arr[i]`. -/
def load (t : Table) (i : Int) : Except Fault (Bool × Table) :=
  if 0 ≤ i ∧ i.toNat < t.cells.size then
    .ok (t.cells.getD i.toNat false, { t with log := .read i :: t.log })
  else .error (.indexOutOfRange i t.cells.size)

/-- Model of the write `arr[i] = v`. -/
def store (t : Table) (i : Int) (v : Bool) : Except Fault Table :=
  if 0 ≤ i ∧ i.toNat < t.cells.size then
    .ok { cells := t.cells.setD i.toNat v, log := .write i v :: t.log }
  else .error (.indexOutOfRange i t.cells.size)

/-! ## The loops of `sumOfPrimes` -/

/-- Loop `for i := 0; i < hi; i++ { arr[i] = true }`, entered at `i`. -/
def initLoop (m : IntMode) (hi : Int) : Nat → Int → Table → Except Fault Table
  | 0, _, _ => .error .outOfFuel
  | fuel + 1, i, t =>
    if i < hi then do
      let t ← store t i true
      let i ← m.norm (i + 1)
      initLoop m hi fuel i t
    else .ok t

/-- Loop `for c := p * p; c < hi; c += p { arr[c] = false }`, entered at `c`. -/
def markLoop (m : IntMode) (hi p : Int) : Nat → Int → Table → Except Fault Table
  | 0, _, _ => .error .outOfFuel
  | fuel + 1, c, t =>
    if c < hi then do
      let t ← store t c false
      let c ← m.norm (c + p)
      markLoop m hi p fuel c t
    else .ok t

/-- Loop `for p := 2; p*p < hi; p++ { if !arr[p] { continue }; ... }`, entered at `p`.
Each run of the inner marking loop gets the budget `inner`. -/
def sieveLoop (m : IntMode) (hi : Int) (inner : Nat) : Nat → Int → Table → Except Fault Table
  | 0, _, _ => .error .outOfFuel
  | fuel + 1, p, t => do
    let pp ← m.norm (p * p)
    if pp < hi then do
      let (flag, t) ← load t p
      if !flag then do
        let p ← m.norm (p + 1)
        sieveLoop m hi inner fuel p t
      else do
        let c ← m.norm (p * p)
        let t ← markLoop m hi p inner c t
        let p ← m.norm (p + 1)
        sieveLoop m hi inner fuel p t
    else .ok t

/-- Loop `for p := 2; p < hi; p++ { if arr[p] { sum += p } }`, entered at `p` with `sum`. -/
def sumLoop (m : IntMode) (hi : Int) : Nat → Int → Int → Table → Except Fault (Int × Table)
  | 0, _, _, _ => .error .outOfFuel
  | fuel + 1, p, sum, t =>
    if p < hi then do
      let (flag, t) ← load t p
      if flag then do
        let sum ← m.norm (sum + p)
        let p ← m.norm (p + 1)
        sumLoop m hi fuel p sum t
      else do
        let p ← m.norm (p + 1)
        sumLoop m hi fuel p sum t
    else .ok (sum, t)

/-- Body of `sumOfPrimes(hi)`: returned sum and final table, every loop with budget `fuel`. -/
def sumOfPrimesRun (m : IntMode) (fuel : Nat) (hi : Int) : Except Fault (Int × Table) := do
  let arr ← make hi
  let arr ← initLoop m hi fuel 0 arr
  let arr ← sieveLoop m hi fuel fuel 2 arr
  sumLoop m hi fuel 2 0 arr

/-- Budget that is enough for every loop of `sumOfPrimes(hi)`. -/
def budget (hi : Int) : Nat := hi.toNat + 1

/-- Go function `sumOfPrimes` with 64-bit wrap-around arithmetic and budget `fuel`. -/
def sumOfPrimes64 (fuel : Nat) (hi : Int) : Except Fault Int :=
  (sumOfPrimesRun .wrap fuel hi).map Prod.fst

/-- Go function `sumOfPrimes`: Go's `int` is the signed 64-bit integer with wrap-around,
and every loop has the budget `budget hi`. -/
def sumOfPrimes (hi : Int) : Except Fault Int := sumOfPrimes64 (budget hi) hi

/-- The body of `sumOfPrimes` evaluated over unbounded integers: the reference against
which the absence of overflow is stated. -/
def sumOfPrimesExact (hi : Int) : Except Fault Int :=
  (sumOfPrimesRun .exact (budget hi) hi).map Prod.fst

/-- Table accesses made by `sumOfPrimes(hi)`, oldest first. -/
def accessesOf (hi : Int) : Except Fault (List Access) :=
  (sumOfPrimesRun .wrap (budget hi) hi).map fun r => r.2.log.reverse

/-- Sum of the primes below `n`: the mathematical reference. -/
def primeSumBelow (n : Nat) : Nat := ∑ p in (Finset.range n).filter Nat.Prime, p

/-- Standard output of a program run, and the fault that ended it, if any. -/
structure Run where
  stdout : String
  fault : Option Fault
  deriving DecidableEq, Repr

/-- Text produced by `fmt.Printf(format, v)` for a format whose only verb is `%d`:
the verb is replaced by the decimal form of `v`, every other character is copied. -/
def sprintfD : List Char → Int → List Char
  | '%' :: 'd' :: rest, v => (toString v).toList ++ rest
  | c :: rest, v => c :: sprintfD rest v
  | [], _ => []

/-- Program entry of `hello.go`: two `fmt.Printf` calls, the second one on `sumOfPrimes(100)`.
A fault of `sumOfPrimes` ends the run after the first line. -/
def main : Run :=
  let out := "Hello, World!\n"
  match sumOfPrimes 100 with
  | .ok v =>
    { stdout := out ++
        String.mk (sprintfD "2 + 3 + 5 + 7 + 11 + ... + 83 + 89 + 97 == %d\n".toList v),
      fault := none }
  | .error e => { stdout := out, fault := some e }

/-! ## Notions used to state the behaviour of the loops -/

/-- Flag stored at index `i` (false outside the table). -/
def Table.flag (t : Table) (i : Nat) : Bool := t.cells.getD i false

/-- Index `j` has a divisor `q ≥ 2` with `q * q ≤ j`. -/
def hasSmallDivisor (j : Nat) : Prop := ∃ q, 2 ≤ q ∧ q ∣ j ∧ q * q ≤ j

/-- State of the table when the outer loop is about to test candidate `p`. -/
def SieveInv (n p : Nat) (t : Table) : Prop :=
  t.cells.size = n ∧
    ∀ j, j < n → (t.flag j = false ↔ ∃ q, 2 ≤ q ∧ q < p ∧ q ∣ j ∧ q * q ≤ j)

/-- Table `t'` has the length of `t`, and each access logged in `t'` but not in `t` is in range. -/
def LogExt (t t' : Table) : Prop :=
  t'.cells.size = t.cells.size ∧
    ∀ a, a ∈ t'.log → a ∈ t.log ∨ (0 ≤ a.idx ∧ a.idx < (t.cells.size : Int))

/-! ## The phases of `sumOfPrimes` and the table at a point of the execution -/

/-- Table after the allocation and the initialisation loop (lines 11 to 14 of `hello.go`). -/
def initPhase (m : IntMode) (fuel : Nat) (hi : Int) : Except Fault Table := do
  let arr ← make hi
  initLoop m hi fuel 0 arr

/-- Table after the sieve loops (lines 11 to 22 of `hello.go`). -/
def sievePhase (m : IntMode) (fuel : Nat) (hi : Int) : Except Fault Table := do
  let arr ← initPhase m fuel hi
  sieveLoop m hi fuel fuel 2 arr

/-- Effect of one logged access on the cells of the table: a read changes nothing, a write
stores its value. -/
def applyAccess (cells : Array Bool) : Access → Array Bool
  | .read _ => cells
  | .write i v => if 0 ≤ i then cells.setD i.toNat v else cells

/-- Cells reached from `cells` by the accesses `accs`, oldest first. -/
def replay (cells : Array Bool) (accs : List Access) : Array Bool :=
  accs.foldl applyAccess cells

/-- Indices written at the head of an access list, up to its first read. -/
def writesUntilRead : List Access → List Int
  | .write i _ :: rest => i :: writesUntilRead rest
  | _ => []

/-- Indices written during the pass of the outer loop for candidate `p`: the writes between
the first read of `arr[p]` and the next read. -/
def passWrites (p : Int) : List Access → List Int
  | [] => []
  | .read i :: rest => if i = p then writesUntilRead rest else passWrites p rest
  | .write _ _ :: rest => passWrites p rest

/-- Whether an access is allowed in the sieve loops: a read of an index from 2 on, or a
write of `false` to an index from 4 on. -/
def Access.sieveLike : Access → Prop
  | .read i => 2 ≤ i
  | .write i v => v = false ∧ 4 ≤ i

/-! ## The function on a heap shared by all calls -/

/-- The heap of the program: the slices allocated so far.  A slice is referred to by its
position in the list; the heap is the only state that one call could pass to the next. -/
structure Heap where
  slices : List (Array Bool)
  deriving DecidableEq, Repr

/-- Model of `make([]bool, hi)` on the heap: a new zeroed slice after the existing ones, and
the reference to it. -/
def Heap.alloc (h : Heap) (hi : Int) : Except Fault (Nat × Heap) :=
  if hi < 0 then .error (.negativeLen hi)
  else if (maxAlloc : Int) < hi then .error (.lenOutOfRange hi)
  else .ok (h.slices.length, { slices := h.slices ++ [mkArray hi.toNat false] })

/-- Model of the read `arr[i]` through the reference `arr`. -/
def Heap.load (h : Heap) (arr : Nat) (i : Int) : Except Fault Bool :=
  match h.slices[arr]? with
  | none => .error (.noSlice arr)
  | some cells =>
    if 0 ≤ i ∧ i.toNat < cells.size then .ok (cells.getD i.toNat false)
    else .error (.indexOutOfRange i cells.size)

/-- Model of the write `arr[i] = v` through the reference `arr`. -/
def Heap.store (h : Heap) (arr : Nat) (i : Int) (v : Bool) : Except Fault Heap :=
  match h.slices[arr]? with
  | none => .error (.noSlice arr)
  | some cells =>
    if 0 ≤ i ∧ i.toNat < cells.size then
      .ok { slices := h.slices.set arr (cells.setD i.toNat v) }
    else .error (.indexOutOfRange i cells.size)

/-- Loop `for i := 0; i < hi; i++ { arr[i] = true }` on the heap. -/
def initLoopOn (m : IntMode) (hi : Int) (arr : Nat) : Nat → Int → Heap → Except Fault Heap
  | 0, _, _ => .error .outOfFuel
  | fuel + 1, i, h =>
    if i < hi then do
      let h ← h.store arr i true
      let i ← m.norm (i + 1)
      initLoopOn m hi arr fuel i h
    else .ok h

/-- Loop `for c := p * p; c < hi; c += p { arr[c] = false }` on the heap. -/
def markLoopOn (m : IntMode) (hi p : Int) (arr : Nat) : Nat → Int → Heap → Except Fault Heap
  | 0, _, _ => .error .outOfFuel
  | fuel + 1, c, h =>
    if c < hi then do
      let h ← h.store arr c false
      let c ← m.norm (c + p)
      markLoopOn m hi p arr fuel c h
    else .ok h

/-- Loop `for p := 2; p*p < hi; p++ { if !arr[p] { continue }; ... }` on the heap. -/
def sieveLoopOn (m : IntMode) (hi : Int) (arr : Nat) (inner : Nat) :
    Nat → Int → Heap → Except Fault Heap
  | 0, _, _ => .error .outOfFuel
  | fuel + 1, p, h => do
    let pp ← m.norm (p * p)
    if pp < hi then do
      let flag ← h.load arr p
      if !flag then do
        let p ← m.norm (p + 1)
        sieveLoopOn m hi arr inner fuel p h
      else do
        let c ← m.norm (p * p)
        let h ← markLoopOn m hi p arr inner c h
        let p ← m.norm (p + 1)
        sieveLoopOn m hi arr inner fuel p h
    else .ok h

/-- Loop `for p := 2; p < hi; p++ { if arr[p] { sum += p } }` on the heap. -/
def sumLoopOn (m : IntMode) (hi : Int) (arr : Nat) :
    Nat → Int → Int → Heap → Except Fault (Int × Heap)
  | 0, _, _, _ => .error .outOfFuel
  | fuel + 1, p, sum, h =>
    if p < hi then do
      let flag ← h.load arr p
      if flag then do
        let sum ← m.norm (sum + p)
        let p ← m.norm (p + 1)
        sumLoopOn m hi arr fuel p sum h
      else do
        let p ← m.norm (p + 1)
        sumLoopOn m hi arr fuel p sum h
    else .ok (sum, h)

/-- Body of `sumOfPrimes(hi)` run on the heap `h`: the returned sum and the heap afterwards. -/
def sumOfPrimesOn (m : IntMode) (fuel : Nat) (h : Heap) (hi : Int) : Except Fault (Int × Heap) := do
  let (arr, h) ← h.alloc hi
  let h ← initLoopOn m hi arr fuel 0 h
  let h ← sieveLoopOn m hi arr fuel fuel 2 h
  sumLoopOn m hi arr fuel 2 0 h

/-- One call of the 64-bit `sumOfPrimes(hi)` on the heap: its result, and the heap afterwards
(unchanged when the call panics). -/
def call (h : Heap) (hi : Int) : Except Fault Int × Heap :=
  match sumOfPrimesOn .wrap (budget hi) h hi with
  | .ok (v, h1) => (.ok v, h1)
  | .error e => (.error e, h)

/-- Calls of `sumOfPrimes` on the given bounds, one after another: the heap afterwards. -/
def callAll (h : Heap) : List Int → Heap
  | [] => h
  | b :: rest => callAll (call h b).2 rest

/-! ## The sieve without the skip of cleared candidates -/

/-- Naive variant of the sieve loop, following the words of the specification rather than
the source: the marking loop runs from `p*p` in steps of `p` for every `p ≥ 2` with
`p*p < hi`, and `arr[p]` is not consulted. -/
def sieveLoopNaive (m : IntMode) (hi : Int) (inner : Nat) :
    Nat → Int → Table → Except Fault Table
  | 0, _, _ => .error .outOfFuel
  | fuel + 1, p, t => do
    let pp ← m.norm (p * p)
    if pp < hi then do
      let c ← m.norm (p * p)
      let t ← markLoop m hi p inner c t
      let p ← m.norm (p + 1)
      sieveLoopNaive m hi inner fuel p t
    else .ok t

/-- Table after the initialisation and the naive sieve. -/
def sievePhaseNaive (m : IntMode) (fuel : Nat) (hi : Int) : Except Fault Table := do
  let arr ← initPhase m fuel hi
  sieveLoopNaive m hi fuel fuel 2 arr

/-- Body of `sumOfPrimes(hi)` with the naive sieve in place of the sieve of the source. -/
def sumOfPrimesNaiveRun (m : IntMode) (fuel : Nat) (hi : Int) : Except Fault (Int × Table) := do
  let arr ← sievePhaseNaive m fuel hi
  sumLoop m hi fuel 2 0 arr


end Hello

namespace Embedding

/-! ## The WASM loader `09-embedding/golang/main.go` -/

/-- Functions of the wasmer binding that the loader calls, each modelled by its result:
a value, or the text of the returned error. -/
structure Wasmer (Bytes Inst Value : Type) where
  /-- Result of `wasm.ReadBytes(path)`. -/
  readBytes : String → Except String Bytes
  /-- Result of `wasm.NewInstance(bytes)`. -/
  newInstance : Bytes → Except String Inst
  /-- Lookup `instance.Exports[name]`; `none` is Go's nil function for a missing key. -/
  exports : Inst → String → Option (Int → Except String Value)
  /-- Text that `fmt.Println` writes for a value. -/
  render : Value → String

/-- Observable steps of a run of the loader. -/
inductive Event where
  /-- Call of `wasm.ReadBytes`. -/
  | readBytes (path : String)
  /-- Call of `wasm.NewInstance`. -/
  | newInstance
  /-- Call of an exported function with one argument. -/
  | call (name : String) (arg : Int)
  /-- Line written by `fmt.Println`. -/
  | println (text : String)
  /-- Deferred `instance.Close()`. -/
  | close
  /-- Message of `log.Fatalf`, after which the process exits with status 1
  (deferred calls do not run). -/
  | fatal (msg : String)
  /-- Panic caused by calling the nil function of a missing export. -/
  | nilCall (name : String)
  deriving DecidableEq, Repr

/-- Whether an event is one of the three steps read, instantiate, call. -/
def Event.isStep : Event → Bool
  | .readBytes _ => true
  | .newInstance => true
  | .call _ _ => true
  | _ => false

/-- Program entry of the loader: the events of a run, oldest first. -/
def main {Bytes Inst Value : Type} (w : Wasmer Bytes Inst Value) : List Event :=
  match w.readBytes "my_lib.wasm" with
  | .error err => [.readBytes "my_lib.wasm", .fatal ("error reading wasm: " ++ err)]
  | .ok bytes =>
    match w.newInstance bytes with
    | .error err =>
      [.readBytes "my_lib.wasm", .newInstance, .fatal ("error instantiating wasm: " ++ err)]
    | .ok inst =>
      match w.exports inst "sum_of_squares" with
      | none => [.readBytes "my_lib.wasm", .newInstance, .nilCall "sum_of_squares", .close]
      | some sum =>
        match sum 100 with
        | .error err =>
          [.readBytes "my_lib.wasm", .newInstance, .call "sum_of_squares" 100,
            .fatal ("error calling wasm library: " ++ err)]
        | .ok result =>
          [.readBytes "my_lib.wasm", .newInstance, .call "sum_of_squares" 100,
            .println (w.render result), .close]

/-- A binding whose file cannot be read. -/
def unreadable : Wasmer Unit Unit Int where
  readBytes := fun _ => .error "open my_lib.wasm: no such file or directory"
  newInstance := fun _ => .ok ()
  exports := fun _ _ => none
  render := fun v => toString v

/-- Sum of the squares `0*0 + 1*1 + ... + n*n`. -/
def sumOfSquares (n : Nat) : Nat := ((List.range (n + 1)).map fun k => k * k).sum

/-- A binding whose module loads and exports `sum_of_squares`. -/
def working : Wasmer Unit Unit Int where
  readBytes := fun _ => .ok ()
  newInstance := fun _ => .ok ()
  exports := fun _ name =>
    if name = "sum_of_squares" then some fun n => .ok (Int.ofNat (sumOfSquares n.toNat))
    else none
  render := fun v => toString v

end Embedding

namespace Hello

/-! ## Elementary facts about the table operations -/

theorem getD_setD (a : Array Bool) (i j : Nat) (v : Bool) (h : i < a.size) :
    (a.setD i v).getD j false = if j = i then v else a.getD j false := by
  simp only [Array.getD_eq_get?]
  by_cases hji : j = i
  · subst hji
    simp [Array.getElem?_setD_eq a h v]
  · simp only [hji, if_false]
    congr 1
    simp [Array.setD, h, Array.getElem?_eq_getElem?_toList, List.getElem?_set_ne (Ne.symm hji)]

@[simp] theorem norm_exact (x : Int) : IntMode.norm .exact x = .ok x := rfl

@[simp] theorem ok_bind {α β : Type} (a : α) (f : α → Except Fault β) :
    (Except.ok a >>= f) = f a := rfl

@[simp] theorem error_bind {α β : Type} (e : Fault) (f : α → Except Fault β) :
    (Except.error e >>= f) = Except.error e := rfl

theorem store_nat (t : Table) (i : Nat) (v : Bool) (h : i < t.cells.size) :
    store t (i : Int) v = .ok { cells := t.cells.setD i v, log := .write i v :: t.log } := by
  simp [store, h]

theorem load_nat (t : Table) (i : Nat) (h : i < t.cells.size) :
    load t (i : Int) = .ok (t.flag i, { t with log := .read i :: t.log }) := by
  simp [load, h, Table.flag]

/-- A successful write keeps the length and logs exactly one in-range access. -/
theorem store_inv {t t' : Table} {i : Int} {v : Bool} (h : store t i v = .ok t') :
    t'.cells.size = t.cells.size ∧ t'.log = .write i v :: t.log ∧
      0 ≤ i ∧ i < t.cells.size := by
  unfold store at h
  split at h
  · rename_i hc
    injection h with h
    subst h
    refine ⟨by simp, rfl, hc.1, ?_⟩
    have := hc.2
    omega
  · exact absurd h (by simp)

/-- A successful read keeps the cells and logs exactly one in-range access. -/
theorem load_inv {t t' : Table} {i : Int} {b : Bool} (h : load t i = .ok (b, t')) :
    t'.cells = t.cells ∧ t'.log = .read i :: t.log ∧ 0 ≤ i ∧ i < t.cells.size := by
  unfold load at h
  split at h
  · rename_i hc
    injection h with h
    injection h with h1 h2
    subst h2
    refine ⟨rfl, rfl, hc.1, ?_⟩
    have := hc.2
    omega
  · exact absurd h (by simp)

/-! ## The initialisation loop -/

theorem initLoop_spec (n : Nat) (fuel i : Nat) (t : Table) (hsz : t.cells.size = n)
    (hfuel : n - i < fuel) :
    ∃ t', initLoop .exact n fuel i t = .ok t' ∧ t'.cells.size = n ∧
      ∀ j, t'.flag j = if i ≤ j ∧ j < n then true else t.flag j := by
  induction fuel generalizing i t with
  | zero => omega
  | succ fuel ih =>
    unfold initLoop
    by_cases hi : i < n
    · have hi' : (i : Int) < (n : Int) := by exact_mod_cast hi
      rw [if_pos hi', store_nat t i true (by omega)]
      simp only [ok_bind, norm_exact]
      have hcast : (i : Int) + 1 = ((i + 1 : Nat) : Int) := by push_cast; rfl
      rw [hcast]
      obtain ⟨t', h1, h2, h3⟩ := ih (i + 1) ⟨t.cells.setD i true, .write i true :: t.log⟩
        (by simp [hsz]) (by omega)
      refine ⟨t', h1, h2, fun j => ?_⟩
      rw [h3 j]
      simp only [Table.flag]
      rw [getD_setD _ _ _ _ (by omega)]
      by_cases hj : j = i
      · subst hj; simp [hi]
      · by_cases hj2 : i + 1 ≤ j ∧ j < n
        · have : i ≤ j ∧ j < n := ⟨by omega, hj2.2⟩
          simp [hj2, this]
        · have : ¬ (i ≤ j ∧ j < n) := by omega
          simp [hj2, this, hj]
    · have hi' : ¬ (i : Int) < (n : Int) := by exact_mod_cast hi
      rw [if_neg hi']
      refine ⟨t, rfl, hsz, fun j => ?_⟩
      have : ¬ (i ≤ j ∧ j < n) := by omega
      simp [this]

/-! ## The marking loop -/

theorem mark_step_iff (n p c j : Nat) (hp : 0 < p) (hjc : j ≠ c) :
    (c + p ≤ j ∧ j < n ∧ p ∣ j - (c + p)) ↔ (c ≤ j ∧ j < n ∧ p ∣ j - c) := by
  constructor
  · rintro ⟨h1, h2, h3⟩
    refine ⟨by omega, h2, ?_⟩
    have : j - c = (j - (c + p)) + p := by omega
    rw [this]
    exact Dvd.dvd.add h3 (dvd_refl p)
  · rintro ⟨h1, h2, h3⟩
    have hpos : 0 < j - c := by omega
    have hle : p ≤ j - c := Nat.le_of_dvd hpos h3
    refine ⟨by omega, h2, ?_⟩
    have : j - (c + p) = (j - c) - p := by omega
    rw [this]
    exact Nat.dvd_sub' h3 (dvd_refl p)

theorem markLoop_spec (n p : Nat) (hp : 0 < p) (fuel c : Nat) (t : Table)
    (hsz : t.cells.size = n) (hfuel : n - c < fuel) :
    ∃ t', markLoop .exact n p fuel c t = .ok t' ∧ t'.cells.size = n ∧
      ∀ j, t'.flag j = (t.flag j && !decide (c ≤ j ∧ j < n ∧ p ∣ j - c)) := by
  induction fuel generalizing c t with
  | zero => omega
  | succ fuel ih =>
    unfold markLoop
    by_cases hc : c < n
    · have hc' : (c : Int) < (n : Int) := by exact_mod_cast hc
      rw [if_pos hc', store_nat t c false (by omega)]
      simp only [ok_bind, norm_exact]
      have hcast : (c : Int) + (p : Int) = ((c + p : Nat) : Int) := by push_cast; rfl
      rw [hcast]
      obtain ⟨t', h1, h2, h3⟩ := ih (c + p) ⟨t.cells.setD c false, .write c false :: t.log⟩
        (by simp [hsz]) (by omega)
      refine ⟨t', h1, h2, fun j => ?_⟩
      rw [h3 j]
      simp only [Table.flag]
      rw [getD_setD _ _ _ _ (by omega)]
      by_cases hj : j = c
      · subst hj; simp [hc]
      · simp only [hj, if_false, mark_step_iff n p c j hp hj]
    · have hc' : ¬ (c : Int) < (n : Int) := by exact_mod_cast hc
      rw [if_neg hc']
      refine ⟨t, rfl, hsz, fun j => ?_⟩
      have : ¬ (c ≤ j ∧ j < n ∧ p ∣ j - c) := by omega
      simp [this]

/-! ## The sieve loop -/

theorem sieveInv_skip {n p : Nat} {t : Table} (hpn : p < n) (hflag : t.flag p = false)
    (inv : SieveInv n p t) : SieveInv n (p + 1) t := by
  refine ⟨inv.1, fun j hj => ?_⟩
  rw [inv.2 j hj]
  constructor
  · rintro ⟨q, h1, h2, h3, h4⟩
    exact ⟨q, h1, by omega, h3, h4⟩
  · rintro ⟨q, h1, h2, h3, h4⟩
    by_cases hq : q < p
    · exact ⟨q, h1, hq, h3, h4⟩
    · have hqp : q = p := by omega
      subst hqp
      obtain ⟨r, r1, r2, r3, r4⟩ := (inv.2 q hpn).1 hflag
      refine ⟨r, r1, r2, dvd_trans r3 h3, ?_⟩
      have : q ≤ q * q := Nat.le_mul_self q
      omega

theorem sieveInv_mark {n p : Nat} {t t' : Table} (hp : 2 ≤ p) (inv : SieveInv n p t)
    (hsz : t'.cells.size = n)
    (hfl : ∀ j, t'.flag j = (t.flag j && !decide (p * p ≤ j ∧ j < n ∧ p ∣ j - p * p))) :
    SieveInv n (p + 1) t' := by
  refine ⟨hsz, fun j hj => ?_⟩
  have key : (p * p ≤ j ∧ j < n ∧ p ∣ j - p * p) ↔ (p ∣ j ∧ p * p ≤ j) := by
    constructor
    · rintro ⟨h1, _, h3⟩
      refine ⟨?_, h1⟩
      have : j = (j - p * p) + p * p := by omega
      rw [this]
      exact Dvd.dvd.add h3 (Dvd.intro p rfl)
    · rintro ⟨h1, h2⟩
      exact ⟨h2, hj, Nat.dvd_sub' h1 (Dvd.intro p rfl)⟩
  have hk : decide (p * p ≤ j ∧ j < n ∧ p ∣ j - p * p) = decide (p ∣ j ∧ p * p ≤ j) :=
    decide_eq_decide.2 key
  rw [hfl j, hk]
  have hinv := inv.2 j hj
  refine ⟨fun h => ?_, fun h => ?_⟩
  · rcases Bool.and_eq_false_iff.1 h with h | h
    · obtain ⟨q, h1, h2, h3, h4⟩ := hinv.1 h
      exact ⟨q, h1, by omega, h3, h4⟩
    · have h' : p ∣ j ∧ p * p ≤ j := by simpa using h
      exact ⟨p, hp, by omega, h'.1, h'.2⟩
  · obtain ⟨q, h1, h2, h3, h4⟩ := h
    rcases Nat.lt_or_ge q p with hq | hq
    · have hf : t.flag j = false := hinv.2 ⟨q, h1, hq, h3, h4⟩
      simp [hf]
    · have hqp : q = p := by omega
      subst hqp
      simp [h3, h4]

theorem sieveLoop_spec (n inner : Nat) (hinner : n < inner) (fuel p : Nat) (t : Table)
    (hp : 2 ≤ p) (inv : SieveInv n p t) (hfuel : n - p < fuel) :
    ∃ t', sieveLoop .exact n inner fuel p t = .ok t' ∧ t'.cells.size = n ∧
      ∀ j, j < n → (t'.flag j = false ↔ hasSmallDivisor j) := by
  induction fuel generalizing p t with
  | zero => omega
  | succ fuel ih =>
    unfold sieveLoop
    simp only [ok_bind, norm_exact]
    by_cases hpp : p * p < n
    · have hpp' : (p : Int) * (p : Int) < (n : Int) := by exact_mod_cast hpp
      have hpn : p < n := lt_of_le_of_lt (Nat.le_mul_self p) hpp
      rw [if_pos hpp', load_nat t p (by rw [inv.1]; exact hpn)]
      simp only [ok_bind]
      have hcast : (p : Int) + 1 = ((p + 1 : Nat) : Int) := by push_cast; rfl
      have hcast2 : (p : Int) * (p : Int) = ((p * p : Nat) : Int) := by push_cast; rfl
      cases hflag : t.flag p with
      | false =>
        simp only [Bool.not_false, if_true]
        rw [hcast]
        exact ih (p + 1) ⟨t.cells, .read p :: t.log⟩ (by omega)
          (sieveInv_skip hpn hflag inv) (by omega)
      | true =>
        simp only [Bool.not_true, Bool.false_eq_true, if_false]
        rw [hcast2]
        obtain ⟨t1, e1, s1, f1⟩ := markLoop_spec n p (by omega) inner (p * p)
          ⟨t.cells, .read p :: t.log⟩ inv.1 (by omega)
        rw [e1]
        simp only [ok_bind]
        rw [hcast]
        exact ih (p + 1) t1 (by omega) (sieveInv_mark hp inv s1 f1) (by omega)
    · have hpp' : ¬ (p : Int) * (p : Int) < (n : Int) := by exact_mod_cast hpp
      rw [if_neg hpp']
      refine ⟨t, rfl, inv.1, fun j hj => ?_⟩
      rw [inv.2 j hj]
      constructor
      · rintro ⟨q, h1, _, h3, h4⟩
        exact ⟨q, h1, h3, h4⟩
      · rintro ⟨q, h1, h3, h4⟩
        refine ⟨q, h1, ?_, h3, h4⟩
        by_contra hq
        have : p * p ≤ q * q := Nat.mul_le_mul (by omega) (by omega)
        omega

theorem prime_iff_not_hasSmallDivisor (j : Nat) (hj : 2 ≤ j) :
    Nat.Prime j ↔ ¬ hasSmallDivisor j := by
  constructor
  · rintro hp ⟨q, h1, h2, h3⟩
    rcases (Nat.dvd_prime hp).1 h2 with h | h
    · omega
    · subst h
      have : q * 2 ≤ q * q := Nat.mul_le_mul_left q h1
      omega
  · intro h
    by_contra hnp
    apply h
    have hmp : (Nat.minFac j).Prime := Nat.minFac_prime (by omega)
    refine ⟨Nat.minFac j, hmp.two_le, Nat.minFac_dvd j, ?_⟩
    have := Nat.minFac_sq_le_self (by omega : 0 < j) hnp
    simpa [sq] using this

/-! ## The summation loop -/

theorem sumLoop_spec (n : Nat) (fuel p : Nat) (s : Int) (t : Table)
    (hsz : t.cells.size = n) (hfuel : n - p < fuel) :
    ∃ t', sumLoop .exact n fuel p s t =
        .ok (s + ∑ j in Finset.Ico p n, (if t.flag j then (j : Int) else 0), t') ∧
      t'.cells = t.cells := by
  induction fuel generalizing p s t with
  | zero => omega
  | succ fuel ih =>
    unfold sumLoop
    by_cases hp : p < n
    · have hp' : (p : Int) < (n : Int) := by exact_mod_cast hp
      rw [if_pos hp', load_nat t p (by omega)]
      simp only [ok_bind, norm_exact]
      have hcast : (p : Int) + 1 = ((p + 1 : Nat) : Int) := by push_cast; rfl
      rw [hcast, Finset.sum_eq_sum_Ico_succ_bot hp]
      cases hflag : t.flag p with
      | true =>
        simp only [if_true]
        obtain ⟨t', h1, h2⟩ := ih (p + 1) (s + p) ⟨t.cells, .read p :: t.log⟩ hsz (by omega)
        refine ⟨t', ?_, h2⟩
        rw [h1]
        simp only [Table.flag, add_assoc]
      | false =>
        simp only [Bool.false_eq_true, if_false]
        obtain ⟨t', h1, h2⟩ := ih (p + 1) s ⟨t.cells, .read p :: t.log⟩ hsz (by omega)
        refine ⟨t', ?_, h2⟩
        rw [h1]
        simp only [Table.flag, zero_add]
    · have hp' : ¬ (p : Int) < (n : Int) := by exact_mod_cast hp
      rw [if_neg hp', Finset.Ico_eq_empty (by omega)]
      exact ⟨t, by simp, rfl⟩

theorem primeSumBelow_eq_Ico (n : Nat) :
    ((primeSumBelow n : Nat) : Int) =
      ∑ j in Finset.Ico 2 n, (if Nat.Prime j then (j : Int) else 0) := by
  unfold primeSumBelow
  rw [Finset.sum_filter]
  push_cast
  symm
  apply Finset.sum_subset
  · intro x hx
    simp only [Finset.mem_Ico, Finset.mem_range] at hx ⊢
    exact hx.2
  · intro x hx hx2
    simp only [Finset.mem_Ico, Finset.mem_range] at hx hx2
    have hnp : ¬ Nat.Prime x := fun h => by have := h.two_le; omega
    simp [hnp]

/-! ## The whole function over unbounded integers -/

theorem make_nat (n : Nat) (hn : n ≤ maxAlloc) :
    make (n : Int) = .ok { cells := mkArray n false, log := [] } := by
  unfold make
  rw [if_neg (by omega), if_neg (by exact_mod_cast not_lt.2 hn), Int.toNat_ofNat]

theorem make_large (hi : Int) (h : (maxAlloc : Int) < hi) :
    make hi = .error (.lenOutOfRange hi) := by
  unfold make
  rw [if_neg (by omega), if_pos h]

theorem make_ok_range {hi : Int} {t : Table} (h : make hi = .ok t) :
    0 ≤ hi ∧ hi ≤ (maxAlloc : Int) ∧ t = { cells := mkArray hi.toNat false, log := [] } := by
  unfold make at h
  split at h
  · exact absurd h (by simp)
  · split at h
    · exact absurd h (by simp)
    · injection h with h
      exact ⟨by omega, by omega, h.symm⟩

/-- With any budget above `n`, the run on an allocatable bound `n` returns the sum of the
primes below `n` and leaves a table of length `n` whose cleared flags are the indices with a
small divisor. -/
theorem run_spec (n fuel : Nat) (hn : n ≤ maxAlloc) (hfuel : n < fuel) :
    ∃ t, sumOfPrimesRun .exact fuel n = .ok ((primeSumBelow n : Nat), t) ∧
      t.cells.size = n ∧ ∀ j, j < n → (t.flag j = false ↔ hasSmallDivisor j) := by
  unfold sumOfPrimesRun
  rw [make_nat n hn]
  simp only [ok_bind]
  obtain ⟨t1, e1, s1, f1⟩ := initLoop_spec n fuel 0 ⟨mkArray n false, []⟩ (by simp) (by omega)
  have e1' : initLoop .exact n fuel 0 ⟨mkArray n false, []⟩ = .ok t1 := by exact_mod_cast e1
  rw [e1']
  simp only [ok_bind]
  have inv1 : SieveInv n 2 t1 := by
    refine ⟨s1, fun j hj => ?_⟩
    rw [f1 j]
    simp only [Nat.zero_le, hj, and_self, if_true]
    constructor
    · intro h; exact absurd h (by simp)
    · rintro ⟨q, h1, h2, _⟩; omega
  obtain ⟨t2, e2, s2, f2⟩ := sieveLoop_spec n fuel hfuel fuel 2 t1 (le_refl 2) inv1 (by omega)
  have e2' : sieveLoop .exact n fuel fuel 2 t1 = .ok t2 := by exact_mod_cast e2
  rw [e2']
  simp only [ok_bind]
  obtain ⟨t3, e3, c3⟩ := sumLoop_spec n fuel 2 0 t2 s2 (by omega)
  have e3' : sumLoop .exact n fuel 2 0 t2 = .ok
      (0 + ∑ j in Finset.Ico 2 n, (if t2.flag j then (j : Int) else 0), t3) := by
    exact_mod_cast e3
  refine ⟨t3, ?_, by rw [c3]; exact s2, fun j hj => ?_⟩
  · rw [e3', primeSumBelow_eq_Ico, zero_add]
    congr 2
    apply Finset.sum_congr rfl
    intro j hj
    simp only [Finset.mem_Ico] at hj
    by_cases hpr : Nat.Prime j
    · have : t2.flag j = true := by
        have h := (prime_iff_not_hasSmallDivisor j hj.1).1 hpr
        rw [← f2 j hj.2] at h
        simpa using h
      simp [hpr, this]
    · have : t2.flag j = false := by
        rw [f2 j hj.2]
        by_contra h
        exact hpr ((prime_iff_not_hasSmallDivisor j hj.1).2 h)
      simp [hpr, this]
  · have : t3.flag j = t2.flag j := by simp only [Table.flag, c3]
    rw [this]
    exact f2 j hj

/-! ## Facts that hold in every integer mode -/

theorem bind_eq_ok {α β : Type} (x : Except Fault α) (f : α → Except Fault β) (r : β) :
    (x >>= f) = .ok r ↔ ∃ a, x = .ok a ∧ f a = .ok r := by
  cases x with
  | error e => simp
  | ok a => simp

theorem LogExt.refl (t : Table) : LogExt t t := ⟨rfl, fun _ h => Or.inl h⟩

theorem LogExt.trans {t1 t2 t3 : Table} (h12 : LogExt t1 t2) (h23 : LogExt t2 t3) :
    LogExt t1 t3 := by
  refine ⟨h23.1.trans h12.1, fun a ha => ?_⟩
  rcases h23.2 a ha with h | h
  · exact h12.2 a h
  · right
    rw [← h12.1]
    exact h

theorem store_logExt {t t' : Table} {i : Int} {v : Bool} (h : store t i v = .ok t') :
    LogExt t t' := by
  obtain ⟨h1, h2, h3, h4⟩ := store_inv h
  refine ⟨h1, fun a ha => ?_⟩
  rw [h2] at ha
  rcases List.mem_cons.1 ha with h | h
  · right; subst h; exact ⟨h3, h4⟩
  · left; exact h

theorem load_logExt {t t' : Table} {i : Int} {b : Bool} (h : load t i = .ok (b, t')) :
    LogExt t t' := by
  obtain ⟨h1, h2, h3, h4⟩ := load_inv h
  refine ⟨by rw [h1], fun a ha => ?_⟩
  rw [h2] at ha
  rcases List.mem_cons.1 ha with h | h
  · right; subst h; exact ⟨h3, h4⟩
  · left; exact h

theorem initLoop_logExt (m : IntMode) (hi : Int) (fuel : Nat) (i : Int) (t t' : Table)
    (h : initLoop m hi fuel i t = .ok t') : LogExt t t' := by
  induction fuel generalizing i t with
  | zero => simp [initLoop] at h
  | succ fuel ih =>
    rw [initLoop] at h
    split at h
    · obtain ⟨t1, hs, h⟩ := (bind_eq_ok _ _ _).1 h
      obtain ⟨i1, _, h⟩ := (bind_eq_ok _ _ _).1 h
      exact (store_logExt hs).trans (ih _ _ h)
    · injection h with h
      subst h
      exact LogExt.refl t

theorem markLoop_logExt (m : IntMode) (hi p : Int) (fuel : Nat) (c : Int) (t t' : Table)
    (h : markLoop m hi p fuel c t = .ok t') : LogExt t t' := by
  induction fuel generalizing c t with
  | zero => simp [markLoop] at h
  | succ fuel ih =>
    rw [markLoop] at h
    split at h
    · obtain ⟨t1, hs, h⟩ := (bind_eq_ok _ _ _).1 h
      obtain ⟨c1, _, h⟩ := (bind_eq_ok _ _ _).1 h
      exact (store_logExt hs).trans (ih _ _ h)
    · injection h with h
      subst h
      exact LogExt.refl t

theorem sieveLoop_logExt (m : IntMode) (hi : Int) (inner fuel : Nat) (p : Int) (t t' : Table)
    (h : sieveLoop m hi inner fuel p t = .ok t') : LogExt t t' := by
  induction fuel generalizing p t with
  | zero => simp [sieveLoop] at h
  | succ fuel ih =>
    rw [sieveLoop] at h
    obtain ⟨pp, _, h⟩ := (bind_eq_ok _ _ _).1 h
    split at h
    · obtain ⟨⟨flag, t1⟩, hl, h⟩ := (bind_eq_ok _ _ _).1 h
      simp only at h
      split at h
      · obtain ⟨p1, _, h⟩ := (bind_eq_ok _ _ _).1 h
        exact (load_logExt hl).trans (ih _ _ h)
      · obtain ⟨c, _, h⟩ := (bind_eq_ok _ _ _).1 h
        obtain ⟨t2, hm, h⟩ := (bind_eq_ok _ _ _).1 h
        obtain ⟨p1, _, h⟩ := (bind_eq_ok _ _ _).1 h
        exact ((load_logExt hl).trans (markLoop_logExt _ _ _ _ _ _ _ hm)).trans (ih _ _ h)
    · injection h with h
      subst h
      exact LogExt.refl t

theorem sumLoop_logExt (m : IntMode) (hi : Int) (fuel : Nat) (p s : Int) (t t' : Table) (r : Int)
    (h : sumLoop m hi fuel p s t = .ok (r, t')) : LogExt t t' := by
  induction fuel generalizing p s t with
  | zero => simp [sumLoop] at h
  | succ fuel ih =>
    rw [sumLoop] at h
    split at h
    · obtain ⟨⟨flag, t1⟩, hl, h⟩ := (bind_eq_ok _ _ _).1 h
      simp only at h
      split at h
      · obtain ⟨s1, _, h⟩ := (bind_eq_ok _ _ _).1 h
        obtain ⟨p1, _, h⟩ := (bind_eq_ok _ _ _).1 h
        exact (load_logExt hl).trans (ih _ _ _ h)
      · obtain ⟨p1, _, h⟩ := (bind_eq_ok _ _ _).1 h
        exact (load_logExt hl).trans (ih _ _ _ h)
    · injection h with h
      injection h with h1 h2
      subst h2
      exact LogExt.refl t

/-- Every access logged by a successful run lies inside the table, whose length is the bound. -/
theorem run_log (m : IntMode) (fuel : Nat) (hi : Int) (r : Int) (t : Table)
    (h : sumOfPrimesRun m fuel hi = .ok (r, t)) :
    0 ≤ hi ∧ (t.cells.size : Int) = hi ∧ ∀ a, a ∈ t.log → 0 ≤ a.idx ∧ a.idx < hi := by
  unfold sumOfPrimesRun at h
  obtain ⟨t0, h0, h⟩ := (bind_eq_ok _ _ _).1 h
  obtain ⟨t1, h1, h⟩ := (bind_eq_ok _ _ _).1 h
  obtain ⟨t2, h2, h⟩ := (bind_eq_ok _ _ _).1 h
  obtain ⟨hneg, _, h0⟩ := make_ok_range h0
  · have h0 := h0.symm
    have hext : LogExt t0 t :=
      ((initLoop_logExt _ _ _ _ _ _ h1).trans (sieveLoop_logExt _ _ _ _ _ _ _ h2)).trans
        (sumLoop_logExt _ _ _ _ _ _ _ _ h)
    have hsz : (t0.cells.size : Int) = hi := by
      rw [← h0]
      simp only [Array.size_mkArray]
      omega
    refine ⟨by omega, by rw [hext.1]; exact hsz, fun a ha => ?_⟩
    rcases hext.2 a ha with hmem | hr
    · rw [← h0] at hmem
      simp at hmem
    · rw [hsz] at hr
      exact hr

/-! ## A larger budget never changes a result -/

theorem initLoop_fuel_mono (m : IntMode) (hi : Int) (fuel fuel' : Nat) (hle : fuel ≤ fuel')
    (i : Int) (t r : Table) (h : initLoop m hi fuel i t = .ok r) :
    initLoop m hi fuel' i t = .ok r := by
  induction fuel generalizing fuel' i t with
  | zero => simp [initLoop] at h
  | succ fuel ih =>
    obtain ⟨k, rfl⟩ : ∃ k, fuel' = k + 1 := ⟨fuel' - 1, by omega⟩
    rw [initLoop] at h ⊢
    by_cases hc : i < hi
    · rw [if_pos hc] at h ⊢
      obtain ⟨t1, hs, h⟩ := (bind_eq_ok _ _ _).1 h
      obtain ⟨i1, hn, h⟩ := (bind_eq_ok _ _ _).1 h
      rw [hs, ok_bind, hn, ok_bind]
      exact ih k (by omega) _ _ h
    · rw [if_neg hc] at h ⊢
      exact h

theorem markLoop_fuel_mono (m : IntMode) (hi p : Int) (fuel fuel' : Nat) (hle : fuel ≤ fuel')
    (c : Int) (t r : Table) (h : markLoop m hi p fuel c t = .ok r) :
    markLoop m hi p fuel' c t = .ok r := by
  induction fuel generalizing fuel' c t with
  | zero => simp [markLoop] at h
  | succ fuel ih =>
    obtain ⟨k, rfl⟩ : ∃ k, fuel' = k + 1 := ⟨fuel' - 1, by omega⟩
    rw [markLoop] at h ⊢
    by_cases hc : c < hi
    · rw [if_pos hc] at h ⊢
      obtain ⟨t1, hs, h⟩ := (bind_eq_ok _ _ _).1 h
      obtain ⟨c1, hn, h⟩ := (bind_eq_ok _ _ _).1 h
      rw [hs, ok_bind, hn, ok_bind]
      exact ih k (by omega) _ _ h
    · rw [if_neg hc] at h ⊢
      exact h

theorem sieveLoop_fuel_mono (m : IntMode) (hi : Int) (inner inner' : Nat) (hin : inner ≤ inner')
    (fuel fuel' : Nat) (hle : fuel ≤ fuel') (p : Int) (t r : Table)
    (h : sieveLoop m hi inner fuel p t = .ok r) :
    sieveLoop m hi inner' fuel' p t = .ok r := by
  induction fuel generalizing fuel' p t with
  | zero => simp [sieveLoop] at h
  | succ fuel ih =>
    obtain ⟨k, rfl⟩ : ∃ k, fuel' = k + 1 := ⟨fuel' - 1, by omega⟩
    rw [sieveLoop] at h ⊢
    obtain ⟨pp, hpp, h⟩ := (bind_eq_ok _ _ _).1 h
    rw [hpp, ok_bind]
    by_cases hc : pp < hi
    · rw [if_pos hc] at h ⊢
      obtain ⟨⟨flag, t1⟩, hl, h⟩ := (bind_eq_ok _ _ _).1 h
      rw [hl, ok_bind]
      simp only at h ⊢
      cases flag with
      | false =>
        simp only [Bool.not_false, if_true] at h ⊢
        obtain ⟨p1, hn, h⟩ := (bind_eq_ok _ _ _).1 h
        rw [hn, ok_bind]
        exact ih k (by omega) _ _ h
      | true =>
        simp only [Bool.not_true, Bool.false_eq_true, if_false] at h ⊢
        obtain ⟨c, hcn, h3⟩ := (bind_eq_ok _ _ _).1 h
        obtain ⟨t2, hm, h4⟩ := (bind_eq_ok _ _ _).1 h3
        obtain ⟨p1, hn, h5⟩ := (bind_eq_ok _ _ _).1 h4
        have hcpp : pp = c := by
          rw [hpp] at hcn
          injection hcn
        subst hcpp
        rw [ok_bind, markLoop_fuel_mono m hi p inner inner' hin pp t1 t2 hm, ok_bind, hn,
          ok_bind]
        exact ih k (by omega) _ _ h5
    · rw [if_neg hc] at h ⊢
      exact h

theorem sumLoop_fuel_mono (m : IntMode) (hi : Int) (fuel fuel' : Nat) (hle : fuel ≤ fuel')
    (p s : Int) (t : Table) (r : Int × Table) (h : sumLoop m hi fuel p s t = .ok r) :
    sumLoop m hi fuel' p s t = .ok r := by
  induction fuel generalizing fuel' p s t with
  | zero => simp [sumLoop] at h
  | succ fuel ih =>
    obtain ⟨k, rfl⟩ : ∃ k, fuel' = k + 1 := ⟨fuel' - 1, by omega⟩
    rw [sumLoop] at h ⊢
    by_cases hc : p < hi
    · rw [if_pos hc] at h ⊢
      obtain ⟨⟨flag, t1⟩, hl, h⟩ := (bind_eq_ok _ _ _).1 h
      rw [hl, ok_bind]
      simp only at h ⊢
      cases flag with
      | true =>
        simp only [if_true] at h ⊢
        obtain ⟨s1, hs, h⟩ := (bind_eq_ok _ _ _).1 h
        obtain ⟨p1, hn, h⟩ := (bind_eq_ok _ _ _).1 h
        rw [hs, ok_bind, hn, ok_bind]
        exact ih k (by omega) _ _ _ h
      | false =>
        simp only [Bool.false_eq_true, if_false] at h ⊢
        obtain ⟨p1, hn, h⟩ := (bind_eq_ok _ _ _).1 h
        rw [hn, ok_bind]
        exact ih k (by omega) _ _ _ h
    · rw [if_neg hc] at h ⊢
      exact h

theorem run_fuel_mono (m : IntMode) (fuel fuel' : Nat) (hle : fuel ≤ fuel') (hi : Int)
    (r : Int × Table) (h : sumOfPrimesRun m fuel hi = .ok r) :
    sumOfPrimesRun m fuel' hi = .ok r := by
  unfold sumOfPrimesRun at h ⊢
  obtain ⟨t0, h0, h⟩ := (bind_eq_ok _ _ _).1 h
  obtain ⟨t1, h1, h⟩ := (bind_eq_ok _ _ _).1 h
  obtain ⟨t2, h2, h⟩ := (bind_eq_ok _ _ _).1 h
  rw [h0, ok_bind, initLoop_fuel_mono m hi fuel fuel' hle 0 t0 t1 h1, ok_bind,
    sieveLoop_fuel_mono m hi fuel fuel' hle fuel fuel' hle 2 t1 t2 h2, ok_bind]
  exact sumLoop_fuel_mono m hi fuel fuel' hle 2 0 t2 r h

/-! ## Machine arithmetic against unbounded arithmetic -/

theorem wrap64_of_inInt64 (x : Int) (h : inInt64 x) : wrap64 x = x := by
  unfold inInt64 at h
  unfold wrap64
  omega

theorem norm_of_inInt64 (m : IntMode) (x : Int) (h : inInt64 x) : m.norm x = .ok x := by
  cases m with
  | exact => rfl
  | wrap => simp only [IntMode.norm, wrap64_of_inInt64 x h]
  | checked => simp only [IntMode.norm, if_pos h]

theorem initLoop_mode (m : IntMode) (hi : Int) (hhi : hi ≤ 281474976710656) (fuel : Nat) (i : Int)
    (t : Table) : initLoop m hi fuel i t = initLoop .exact hi fuel i t := by
  induction fuel generalizing i t with
  | zero => rfl
  | succ fuel ih =>
    rw [initLoop, initLoop]
    by_cases hc : i < hi
    · rw [if_pos hc, if_pos hc]
      cases hs : store t i true with
      | error e => rfl
      | ok t1 =>
        have h0 := (store_inv hs).2.2.1
        rw [ok_bind, ok_bind, norm_exact, norm_of_inInt64 m (i + 1) (by unfold inInt64; omega),
          ok_bind, ok_bind]
        exact ih _ _
    · rw [if_neg hc, if_neg hc]

theorem markLoop_mode (m : IntMode) (hi p : Int) (hhi : hi ≤ 281474976710656) (hp0 : 0 ≤ p)
    (hp : p ≤ 281474976710656) (fuel : Nat) (c : Int) (t : Table) :
    markLoop m hi p fuel c t = markLoop .exact hi p fuel c t := by
  induction fuel generalizing c t with
  | zero => rfl
  | succ fuel ih =>
    rw [markLoop, markLoop]
    by_cases hc : c < hi
    · rw [if_pos hc, if_pos hc]
      cases hs : store t c false with
      | error e => rfl
      | ok t1 =>
        have h0 := (store_inv hs).2.2.1
        rw [ok_bind, ok_bind, norm_exact, norm_of_inInt64 m (c + p) (by unfold inInt64; omega),
          ok_bind, ok_bind]
        exact ih _ _
    · rw [if_neg hc, if_neg hc]

theorem sieveLoop_mode (m : IntMode) (hi : Int) (hhi : hi ≤ 281474976710656) (inner fuel : Nat)
    (p : Int) (hp0 : 0 ≤ p) (hp : p ≤ 16777216) (t : Table) :
    sieveLoop m hi inner fuel p t = sieveLoop .exact hi inner fuel p t := by
  induction fuel generalizing p t with
  | zero => rfl
  | succ fuel ih =>
    have hpp : inInt64 (p * p) := by
      unfold inInt64
      constructor <;> nlinarith
    rw [sieveLoop, sieveLoop, norm_exact, norm_of_inInt64 m (p * p) hpp, ok_bind, ok_bind]
    by_cases hc : p * p < hi
    · have hp1 : p + 1 ≤ 16777216 := by
        by_contra hcon
        have : p = 16777216 := by omega
        subst this
        omega
      rw [if_pos hc, if_pos hc]
      cases hl : load t p with
      | error e => rfl
      | ok r =>
        obtain ⟨flag, t1⟩ := r
        rw [ok_bind, ok_bind]
        simp only [norm_exact, norm_of_inInt64 m (p + 1) (by unfold inInt64; omega), ok_bind]
        cases flag with
        | false =>
          simp only [Bool.not_false, if_true]
          exact ih _ (by omega) hp1 _
        | true =>
          simp only [Bool.not_true, Bool.false_eq_true, if_false]
          rw [markLoop_mode m hi p hhi hp0 (by omega) inner (p * p) t1]
          cases hm : markLoop .exact hi p inner (p * p) t1 with
          | error e => rfl
          | ok t2 =>
            simp only [ok_bind]
            exact ih _ (by omega) hp1 _
    · rw [if_neg hc, if_neg hc]

theorem sumLoop_mode (m : IntMode) (hi : Int) (hhi : hi ≤ 2147483648) (fuel : Nat)
    (p s : Int) (hs0 : 0 ≤ s) (hs : s ≤ 2147483648 * p) (t : Table) :
    sumLoop m hi fuel p s t = sumLoop .exact hi fuel p s t := by
  induction fuel generalizing p s t with
  | zero => rfl
  | succ fuel ih =>
    rw [sumLoop, sumLoop]
    by_cases hc : p < hi
    · rw [if_pos hc, if_pos hc]
      cases hl : load t p with
      | error e => rfl
      | ok r =>
        obtain ⟨flag, t1⟩ := r
        have h0 := (load_inv hl).2.2.1
        rw [ok_bind, ok_bind]
        simp only [norm_exact, norm_of_inInt64 m (p + 1) (by unfold inInt64; omega),
          norm_of_inInt64 m (s + p) (by unfold inInt64; omega), ok_bind]
        cases flag with
        | true =>
          simp only [if_true]
          exact ih _ _ (by omega) (by omega) _
        | false =>
          simp only [Bool.false_eq_true, if_false]
          exact ih _ _ hs0 (by omega) _
    · rw [if_neg hc, if_neg hc]

theorem run_mode (m : IntMode) (fuel : Nat) (hi : Int) (hhi : hi ≤ 2147483648) :
    sumOfPrimesRun m fuel hi = sumOfPrimesRun .exact fuel hi := by
  unfold sumOfPrimesRun
  cases h0 : make hi with
  | error e => rfl
  | ok t0 =>
    rw [ok_bind, ok_bind, initLoop_mode m hi (by omega)]
    cases h1 : initLoop .exact hi fuel 0 t0 with
    | error e => rfl
    | ok t1 =>
      rw [ok_bind, ok_bind, sieveLoop_mode m hi (by omega) fuel fuel 2 (by omega) (by omega)]
      cases h2 : sieveLoop .exact hi fuel fuel 2 t1 with
      | error e => rfl
      | ok t2 =>
        rw [ok_bind, ok_bind]
        exact sumLoop_mode m hi hhi fuel 2 0 (le_refl 0) (by omega) t2

end Hello

namespace Hello

/-! ## The phases of the run -/

theorem run_eq_sievePhase (m : IntMode) (fuel : Nat) (hi : Int) :
    sumOfPrimesRun m fuel hi = (sievePhase m fuel hi >>= fun t => sumLoop m hi fuel 2 0 t) := by
  unfold sumOfPrimesRun sievePhase initPhase
  cases make hi with
  | error e => rfl
  | ok t0 =>
    simp only [ok_bind]
    cases initLoop m hi fuel 0 t0 with
    | error e => rfl
    | ok t1 => rfl

theorem initPhase_spec (n fuel : Nat) (hn : n ≤ maxAlloc) (hfuel : n < fuel) :
    ∃ t, initPhase .exact fuel n = .ok t ∧ SieveInv n 2 t ∧ ∀ j, j < n → t.flag j = true := by
  unfold initPhase
  rw [make_nat n hn]
  simp only [ok_bind]
  obtain ⟨t1, e1, s1, f1⟩ := initLoop_spec n fuel 0 ⟨mkArray n false, []⟩ (by simp) (by omega)
  have e1' : initLoop .exact n fuel 0 ⟨mkArray n false, []⟩ = .ok t1 := by exact_mod_cast e1
  have hfl : ∀ j, j < n → t1.flag j = true := by
    intro j hj
    rw [f1 j]
    simp [hj]
  refine ⟨t1, e1', ⟨s1, fun j hj => ?_⟩, hfl⟩
  rw [hfl j hj]
  constructor
  · intro h; exact absurd h (by simp)
  · rintro ⟨q, h1, h2, _⟩; omega

theorem sievePhase_spec (n fuel : Nat) (hn : n ≤ maxAlloc) (hfuel : n < fuel) :
    ∃ t0 t, initPhase .exact fuel n = .ok t0 ∧ sieveLoop .exact n fuel fuel 2 t0 = .ok t ∧
      sievePhase .exact fuel n = .ok t ∧ SieveInv n 2 t0 ∧ t.cells.size = n ∧
      ∀ j, j < n → (t.flag j = false ↔ hasSmallDivisor j) := by
  obtain ⟨t0, e0, inv0, _⟩ := initPhase_spec n fuel hn hfuel
  obtain ⟨t, e, s, f⟩ := sieveLoop_spec n fuel hfuel fuel 2 t0 (le_refl 2) inv0 (by omega)
  have e' : sieveLoop .exact n fuel fuel 2 t0 = .ok t := by exact_mod_cast e
  refine ⟨t0, t, e0, e', ?_, inv0, s, f⟩
  unfold sievePhase
  rw [e0, ok_bind, e']

theorem flag_true_iff_prime {n : Nat} {t : Table}
    (f : ∀ j, j < n → (t.flag j = false ↔ hasSmallDivisor j)) (j : Nat) (h2 : 2 ≤ j)
    (hj : j < n) : t.flag j = true ↔ Nat.Prime j := by
  rw [prime_iff_not_hasSmallDivisor j h2, ← f j hj]
  cases t.flag j <;> simp

theorem primeSumBelow_succ (n : Nat) :
    primeSumBelow (n + 1) = primeSumBelow n + (if Nat.Prime n then n else 0) := by
  unfold primeSumBelow
  rw [Finset.range_succ, Finset.filter_insert]
  by_cases hp : Nat.Prime n
  · rw [if_pos hp, if_pos hp, Finset.sum_insert (by simp), add_comm]
  · rw [if_neg hp, if_neg hp, add_zero]

theorem cells_eq_of_flags {n : Nat} {t t' : Table} (h : t.cells.size = n) (h' : t'.cells.size = n)
    (hf : ∀ j, j < n → t.flag j = t'.flag j) : t.cells = t'.cells := by
  apply Array.ext
  · rw [h, h']
  · intro i h1 h2
    have := hf i (by omega)
    simpa [Table.flag, Array.getD, h1, h2] using this

/-! ## The naive sieve -/

theorem sieveLoopNaive_spec (n inner : Nat) (hinner : n < inner) (fuel p : Nat) (t : Table)
    (hp : 2 ≤ p) (inv : SieveInv n p t) (hfuel : n - p < fuel) :
    ∃ t', sieveLoopNaive .exact n inner fuel p t = .ok t' ∧ t'.cells.size = n ∧
      ∀ j, j < n → (t'.flag j = false ↔ hasSmallDivisor j) := by
  induction fuel generalizing p t with
  | zero => omega
  | succ fuel ih =>
    unfold sieveLoopNaive
    simp only [ok_bind, norm_exact]
    by_cases hpp : p * p < n
    · have hpp' : (p : Int) * (p : Int) < (n : Int) := by exact_mod_cast hpp
      have hpn : p < n := lt_of_le_of_lt (Nat.le_mul_self p) hpp
      rw [if_pos hpp']
      have hcast : (p : Int) + 1 = ((p + 1 : Nat) : Int) := by push_cast; rfl
      have hcast2 : (p : Int) * (p : Int) = ((p * p : Nat) : Int) := by push_cast; rfl
      rw [hcast2]
      obtain ⟨t1, e1, s1, f1⟩ := markLoop_spec n p (by omega) inner (p * p) t inv.1 (by omega)
      rw [e1]
      simp only [ok_bind]
      rw [hcast]
      exact ih (p + 1) t1 (by omega) (sieveInv_mark hp inv s1 f1) (by omega)
    · have hpp' : ¬ (p : Int) * (p : Int) < (n : Int) := by exact_mod_cast hpp
      rw [if_neg hpp']
      refine ⟨t, rfl, inv.1, fun j hj => ?_⟩
      rw [inv.2 j hj]
      constructor
      · rintro ⟨q, h1, _, h3, h4⟩
        exact ⟨q, h1, h3, h4⟩
      · rintro ⟨q, h1, h3, h4⟩
        refine ⟨q, h1, ?_, h3, h4⟩
        by_contra hq
        have : p * p ≤ q * q := Nat.mul_le_mul (by omega) (by omega)
        omega

theorem sumLoop_congr (n fuel : Nat) (t t' : Table) (h : t.cells.size = n)
    (h' : t'.cells = t.cells) (hfuel : n < fuel) :
    ∃ v r r', sumLoop .exact n fuel 2 0 t = .ok (v, r) ∧ sumLoop .exact n fuel 2 0 t' = .ok (v, r') ∧
      r.cells = t.cells ∧ r'.cells = t.cells := by
  obtain ⟨r, e, c⟩ := sumLoop_spec n fuel 2 0 t h (by omega)
  obtain ⟨r', e', c'⟩ := sumLoop_spec n fuel 2 0 t' (by rw [h']; exact h) (by omega)
  have hfl : ∀ j, t'.flag j = t.flag j := fun j => by simp only [Table.flag, h']
  simp only [hfl] at e'
  exact ⟨_, r, r', by exact_mod_cast e, by exact_mod_cast e', c, by rw [c', h']⟩

/-! ## Replaying accesses and reading passes off an access list -/

theorem replay_append (cells : Array Bool) (a b : List Access) :
    replay cells (a ++ b) = replay (replay cells a) b := by
  unfold replay
  rw [List.foldl_append]

theorem replay_cons (cells : Array Bool) (a : Access) (b : List Access) :
    replay cells (a :: b) = replay (applyAccess cells a) b := rfl

theorem applyAccess_size (cells : Array Bool) (a : Access) :
    (applyAccess cells a).size = cells.size := by
  cases a with
  | read i => rfl
  | write i v =>
    simp only [applyAccess]
    split <;> simp

theorem replay_size (cells : Array Bool) (accs : List Access) :
    (replay cells accs).size = cells.size := by
  induction accs generalizing cells with
  | nil => rfl
  | cons a rest ih => rw [replay_cons, ih, applyAccess_size]

/-- Writes of `false` to the listed indices. -/
theorem writesUntilRead_writes (ws : List Nat) (rest : List Access)
    (hrest : rest = [] ∨ ∃ i tl, rest = Access.read i :: tl) :
    writesUntilRead ((ws.map fun j : Nat => Access.write (j : Int) false) ++ rest) =
      ws.map fun j : Nat => (j : Int) := by
  induction ws with
  | nil =>
    rcases hrest with h | ⟨i, tl, h⟩
    · subst h; rfl
    · subst h; rfl
  | cons w ws ih =>
    rw [List.map_cons, List.cons_append, writesUntilRead, ih, List.map_cons]

theorem passWrites_writes (r : Int) (ws : List Nat) (rest : List Access) :
    passWrites r ((ws.map fun j : Nat => Access.write (j : Int) false) ++ rest) =
      passWrites r rest := by
  induction ws with
  | nil => rfl
  | cons w ws ih =>
    rw [List.map_cons, List.cons_append, passWrites, ih]

theorem passWrites_read_self (p : Int) (rest : List Access) :
    passWrites p (Access.read p :: rest) = writesUntilRead rest := by
  simp only [passWrites, if_true]

theorem passWrites_read_other (r p : Int) (rest : List Access) (h : p ≠ r) :
    passWrites r (Access.read p :: rest) = passWrites r rest := by
  simp only [passWrites, if_neg h]

/-! ## The accesses of the marking loop and of one pass of the sieve loop -/

theorem markLoop_trace (n p : Nat) (hp : 0 < p) (fuel c : Nat) (t : Table)
    (hsz : t.cells.size = n) (hfuel : n - c < fuel) :
    ∃ (t' : Table) (ws : List Nat), markLoop .exact n p fuel c t = .ok t' ∧
      t'.log = (ws.map fun j : Nat => Access.write (j : Int) false).reverse ++ t.log ∧
      t'.cells = replay t.cells (ws.map fun j : Nat => Access.write (j : Int) false) ∧
      ∀ j, j ∈ ws ↔ (c ≤ j ∧ j < n ∧ p ∣ j - c) := by
  induction fuel generalizing c t with
  | zero => omega
  | succ fuel ih =>
    unfold markLoop
    by_cases hc : c < n
    · have hc' : (c : Int) < (n : Int) := by exact_mod_cast hc
      rw [if_pos hc', store_nat t c false (by omega)]
      simp only [ok_bind, norm_exact]
      have hcast : (c : Int) + (p : Int) = ((c + p : Nat) : Int) := by push_cast; rfl
      rw [hcast]
      obtain ⟨t', ws, h1, h2, h3, h4⟩ :=
        ih (c + p) ⟨t.cells.setD c false, .write c false :: t.log⟩ (by simp [hsz]) (by omega)
      refine ⟨t', c :: ws, h1, ?_, ?_, fun j => ?_⟩
      · rw [h2]
        simp only [List.map_cons, List.reverse_cons, List.append_assoc, List.singleton_append]
      · rw [h3, List.map_cons, replay_cons]
        simp only [applyAccess, Int.natCast_nonneg, if_true, Int.toNat_ofNat]
      · rw [List.mem_cons, h4 j]
        by_cases hj : j = c
        · subst hj
          simp [hc]
        · rw [mark_step_iff n p c j hp hj]
          simp [hj]
    · have hc' : ¬ (c : Int) < (n : Int) := by exact_mod_cast hc
      rw [if_neg hc']
      refine ⟨t, [], rfl, rfl, rfl, fun j => ?_⟩
      constructor
      · intro h; exact absurd h (List.not_mem_nil j)
      · rintro ⟨h1, h2, _⟩; omega

theorem dvd_sub_sq_iff (n p j : Nat) (hj : j < n) :
    (p * p ≤ j ∧ j < n ∧ p ∣ j - p * p) ↔ (p ∣ j ∧ p * p ≤ j) := by
  constructor
  · rintro ⟨h1, _, h3⟩
    refine ⟨?_, h1⟩
    have : j = (j - p * p) + p * p := by omega
    rw [this]
    exact Dvd.dvd.add h3 (Dvd.intro p rfl)
  · rintro ⟨h1, h2⟩
    exact ⟨h2, hj, Nat.dvd_sub' h1 (Dvd.intro p rfl)⟩

/-- One iteration of the outer loop at a candidate `p` with `p * p < n`: the read of `arr[p]`,
then writes of `false` to the multiples of `p` from `p * p` on when the flag is set. -/
theorem sieve_step (n inner : Nat) (hinner : n < inner) (p : Nat) (t : Table) (hp : 2 ≤ p)
    (hpp : p * p < n) (inv : SieveInv n p t) :
    ∃ (t1 : Table) (ws : List Nat),
      (∀ fuel, sieveLoop .exact n inner (fuel + 1) p t =
        sieveLoop .exact n inner fuel ((p + 1 : Nat) : Int) t1) ∧
      SieveInv n (p + 1) t1 ∧
      t1.log = (ws.map fun j : Nat => Access.write (j : Int) false).reverse ++
        (Access.read (p : Int) :: t.log) ∧
      t1.cells = replay t.cells (ws.map fun j : Nat => Access.write (j : Int) false) ∧
      ∀ j, j ∈ ws ↔ (t.flag p = true ∧ p ∣ j ∧ p * p ≤ j ∧ j < n) := by
  have hpp' : (p : Int) * (p : Int) < (n : Int) := by exact_mod_cast hpp
  have hpn : p < n := lt_of_le_of_lt (Nat.le_mul_self p) hpp
  have hcast : (p : Int) + 1 = ((p + 1 : Nat) : Int) := by push_cast; rfl
  have hcast2 : (p : Int) * (p : Int) = ((p * p : Nat) : Int) := by push_cast; rfl
  cases hflag : t.flag p with
  | false =>
    refine ⟨⟨t.cells, .read p :: t.log⟩, [], fun fuel => ?_, sieveInv_skip hpn hflag inv,
      rfl, rfl, fun j => ?_⟩
    · rw [sieveLoop]
      simp only [ok_bind, norm_exact]
      rw [if_pos hpp', load_nat t p (by rw [inv.1]; exact hpn)]
      simp only [ok_bind, hflag, Bool.not_false, if_true]
      rw [hcast]
    · simp
  | true =>
    obtain ⟨t1, ws, e1, l1, c1, m1⟩ := markLoop_trace n p (by omega) inner (p * p)
      ⟨t.cells, .read p :: t.log⟩ inv.1 (by omega)
    obtain ⟨t2, e2, s2, f2⟩ := markLoop_spec n p (by omega) inner (p * p)
      ⟨t.cells, .read p :: t.log⟩ inv.1 (by omega)
    have h12 : t2 = t1 := by
      rw [e1] at e2
      injection e2 with h
      exact h.symm
    subst h12
    refine ⟨t2, ws, fun fuel => ?_, sieveInv_mark hp inv s2 f2, l1, c1, fun j => ?_⟩
    · rw [sieveLoop]
      simp only [ok_bind, norm_exact]
      rw [if_pos hpp', load_nat t p (by rw [inv.1]; exact hpn)]
      simp only [ok_bind, hflag, Bool.not_true, Bool.false_eq_true, if_false]
      rw [hcast2, e1]
      simp only [ok_bind]
      rw [hcast]
    · rw [m1 j]
      constructor
      · rintro ⟨h1, h2, h3⟩
        have := (dvd_sub_sq_iff n p j h2).1 ⟨h1, h2, h3⟩
        exact ⟨rfl, this.1, this.2, h2⟩
      · rintro ⟨_, h1, h2, h3⟩
        exact (dvd_sub_sq_iff n p j h3).2 ⟨h1, h2⟩

/-! ## The accesses of the sieve loop -/

theorem sieveLoop_trace (n inner : Nat) (hinner : n < inner) (fuel p : Nat) (t : Table)
    (hp : 2 ≤ p) (inv : SieveInv n p t) (hfuel : n - p < fuel) :
    ∃ (t' : Table) (new : List Access), sieveLoop .exact n inner fuel p t = .ok t' ∧
      t'.log = new.reverse ++ t.log ∧ t'.cells = replay t.cells new ∧
      (∀ a, a ∈ new → a.sieveLike) ∧
      (new = [] ∨ ∃ i tl, new = Access.read i :: tl) ∧
      (∀ q, p ≤ q → q * q < n → ∃ k, new[k]? = some (Access.read (q : Int)) ∧
        SieveInv n q ⟨replay t.cells (new.take k), []⟩ ∧
        ∀ c, (replay t.cells (new.take k)).getD q false = true → q ∣ c → q * q ≤ c → c < n →
          (c : Int) ∈ passWrites q new) ∧
      (∀ (r x : Int), x ∈ passWrites r new →
        ∃ rn xn : Nat, r = rn ∧ x = xn ∧ p ≤ rn ∧ rn ∣ xn) := by
  induction fuel generalizing p t with
  | zero => omega
  | succ fuel ih =>
    by_cases hpp : p * p < n
    · obtain ⟨t1, ws, hstep, inv1, l1, c1, m1⟩ := sieve_step n inner hinner p t hp hpp inv
      have hpn : p < n := lt_of_le_of_lt (Nat.le_mul_self p) hpp
      obtain ⟨t', new', e', l', c', sl', hd', Q', R'⟩ :=
        ih (p + 1) t1 (by omega) inv1 (by omega)
      have hpw : passWrites (p : Int)
          (Access.read (p : Int) :: ((ws.map fun j : Nat => Access.write (j : Int) false) ++ new'))
          = ws.map fun j : Nat => (j : Int) := by
        rw [passWrites_read_self, writesUntilRead_writes ws new' hd']
      have hlen : (Access.read (p : Int) ::
          (ws.map fun j : Nat => Access.write (j : Int) false)).length = ws.length + 1 := by
        simp
      have hrep : replay t.cells
          (Access.read (p : Int) :: (ws.map fun j : Nat => Access.write (j : Int) false)) =
          t1.cells := by
        rw [replay_cons, c1]
        rfl
      refine ⟨t', Access.read (p : Int) ::
        ((ws.map fun j : Nat => Access.write (j : Int) false) ++ new'), ?_, ?_, ?_, ?_, ?_, ?_, ?_⟩
      · rw [hstep]
        exact e'
      · rw [l', l1]
        simp only [List.reverse_cons, List.reverse_append, List.append_assoc,
          List.singleton_append]
      · rw [c', c1, replay_cons, replay_append]
        rfl
      · intro a ha
        rcases List.mem_cons.1 ha with h | h
        · subst h
          show (2 : Int) ≤ (p : Int)
          exact_mod_cast hp
        · rcases List.mem_append.1 h with h | h
          · obtain ⟨j, hj, rfl⟩ := List.mem_map.1 h
            have hjj := ((m1 j).1 hj).2.2.1
            have h4 : 2 * 2 ≤ p * p := Nat.mul_le_mul hp hp
            refine ⟨rfl, ?_⟩
            have : 4 ≤ j := by omega
            exact_mod_cast this
          · exact sl' a h
      · exact Or.inr ⟨_, _, rfl⟩
      · intro q hq hqq
        rcases Nat.eq_or_lt_of_le hq with h | h
        · subst h
          refine ⟨0, by simp, inv, fun c hfl hdv hsq hc => ?_⟩
          rw [hpw]
          exact List.mem_map.2 ⟨c, (m1 c).2 ⟨hfl, hdv, hsq, hc⟩, rfl⟩
        · obtain ⟨k, g, invq, pw⟩ := Q' q (by omega) hqq
          have hne : (p : Int) ≠ (q : Int) := by
            intro hcon
            have : p = q := by exact_mod_cast hcon
            omega
          have hsplit : Access.read (p : Int) ::
              ((ws.map fun j : Nat => Access.write (j : Int) false) ++ new') =
              (Access.read (p : Int) :: (ws.map fun j : Nat => Access.write (j : Int) false))
                ++ new' := rfl
          have htake : (Access.read (p : Int) ::
              ((ws.map fun j : Nat => Access.write (j : Int) false) ++ new')).take
                (ws.length + 1 + k) =
              (Access.read (p : Int) :: (ws.map fun j : Nat => Access.write (j : Int) false))
                ++ new'.take k := by
            rw [hsplit, ← hlen, List.take_append]
          refine ⟨ws.length + 1 + k, ?_, ?_, fun c hfl hdv hsq hc => ?_⟩
          · rw [hsplit, List.getElem?_append_right (by rw [hlen]; omega), hlen]
            have : ws.length + 1 + k - (ws.length + 1) = k := by omega
            rw [this]
            exact g
          · rw [htake, replay_append, hrep]
            exact invq
          · rw [passWrites_read_other _ _ _ hne, passWrites_writes]
            apply pw c _ hdv hsq hc
            rw [htake, replay_append, hrep] at hfl
            exact hfl
      · intro r x hx
        by_cases hr : (p : Int) = r
        · subst hr
          rw [hpw] at hx
          obtain ⟨j, hj, rfl⟩ := List.mem_map.1 hx
          exact ⟨p, j, rfl, rfl, le_refl p, ((m1 j).1 hj).2.1⟩
        · rw [passWrites_read_other _ _ _ hr, passWrites_writes] at hx
          obtain ⟨rn, xn, h1, h2, h3, h4⟩ := R' r x hx
          exact ⟨rn, xn, h1, h2, by omega, h4⟩
    · have hpp' : ¬ (p : Int) * (p : Int) < (n : Int) := by exact_mod_cast hpp
      refine ⟨t, [], ?_, rfl, rfl, ?_, Or.inl rfl, ?_, ?_⟩
      · rw [sieveLoop]
        simp only [ok_bind, norm_exact]
        rw [if_neg hpp']
      · intro a ha
        exact absurd ha (List.not_mem_nil a)
      · intro q hq hqq
        have : p * p ≤ q * q := Nat.mul_le_mul hq hq
        omega
      · intro r x hx
        exact absurd hx (List.not_mem_nil x)

/-! ## The accesses of the initialisation and summation loops, and of the whole run -/

theorem initLoop_trace (n : Nat) (fuel i : Nat) (t : Table) (hsz : t.cells.size = n)
    (hfuel : n - i < fuel) :
    ∃ (t' : Table) (new : List Access), initLoop .exact n fuel i t = .ok t' ∧
      t'.log = new.reverse ++ t.log ∧ t'.cells = replay t.cells new ∧
      ∀ a, a ∈ new → ∃ j : Int, a = Access.write j true := by
  induction fuel generalizing i t with
  | zero => omega
  | succ fuel ih =>
    unfold initLoop
    by_cases hi : i < n
    · have hi' : (i : Int) < (n : Int) := by exact_mod_cast hi
      rw [if_pos hi', store_nat t i true (by omega)]
      simp only [ok_bind, norm_exact]
      have hcast : (i : Int) + 1 = ((i + 1 : Nat) : Int) := by push_cast; rfl
      rw [hcast]
      obtain ⟨t', new, h1, h2, h3, h4⟩ :=
        ih (i + 1) ⟨t.cells.setD i true, .write i true :: t.log⟩ (by simp [hsz]) (by omega)
      refine ⟨t', Access.write (i : Int) true :: new, h1, ?_, ?_, fun a ha => ?_⟩
      · rw [h2]
        simp only [List.reverse_cons, List.append_assoc, List.singleton_append]
      · rw [h3, replay_cons]
        simp only [applyAccess, Int.natCast_nonneg, if_true, Int.toNat_ofNat]
      · rcases List.mem_cons.1 ha with h | h
        · exact ⟨_, h⟩
        · exact h4 a h
    · have hi' : ¬ (i : Int) < (n : Int) := by exact_mod_cast hi
      rw [if_neg hi']
      exact ⟨t, [], rfl, rfl, rfl, fun a ha => absurd ha (List.not_mem_nil a)⟩

theorem sumLoop_trace (n : Nat) (fuel p : Nat) (s : Int) (t : Table) (hsz : t.cells.size = n)
    (hfuel : n - p < fuel) :
    ∃ (v : Int) (t' : Table) (new : List Access), sumLoop .exact n fuel p s t = .ok (v, t') ∧
      t'.log = new.reverse ++ t.log ∧ t'.cells = t.cells ∧
      ∀ a, a ∈ new → ∃ j : Int, a = Access.read j ∧ (p : Int) ≤ j := by
  induction fuel generalizing p s t with
  | zero => omega
  | succ fuel ih =>
    unfold sumLoop
    by_cases hp : p < n
    · have hp' : (p : Int) < (n : Int) := by exact_mod_cast hp
      rw [if_pos hp', load_nat t p (by omega)]
      simp only [ok_bind, norm_exact]
      have hcast : (p : Int) + 1 = ((p + 1 : Nat) : Int) := by push_cast; rfl
      rw [hcast]
      have key : ∀ s' : Int, ∃ (v : Int) (t' : Table) (new : List Access),
          sumLoop .exact n fuel ((p + 1 : Nat) : Int) s' ⟨t.cells, .read p :: t.log⟩ = .ok (v, t') ∧
          t'.log = new.reverse ++ t.log ∧ t'.cells = t.cells ∧
          ∀ a, a ∈ new → ∃ j : Int, a = Access.read j ∧ (p : Int) ≤ j := by
        intro s'
        obtain ⟨v, t', new, h1, h2, h3, h4⟩ :=
          ih (p + 1) s' ⟨t.cells, .read p :: t.log⟩ hsz (by omega)
        refine ⟨v, t', Access.read (p : Int) :: new, h1, ?_, h3, fun a ha => ?_⟩
        · rw [h2]
          simp only [List.reverse_cons, List.append_assoc, List.singleton_append]
        · rcases List.mem_cons.1 ha with h | h
          · exact ⟨_, h, le_refl _⟩
          · obtain ⟨j, hj, hle⟩ := h4 a h
            refine ⟨j, hj, ?_⟩
            have : ((p + 1 : Nat) : Int) = (p : Int) + 1 := by push_cast; rfl
            omega
      cases hflag : t.flag p with
      | true =>
        simp only [if_true]
        exact key (s + p)
      | false =>
        simp only [Bool.false_eq_true, if_false]
        exact key s
    · have hp' : ¬ (p : Int) < (n : Int) := by exact_mod_cast hp
      rw [if_neg hp']
      exact ⟨s, t, [], rfl, rfl, rfl, fun a ha => absurd ha (List.not_mem_nil a)⟩

/-- Table after the initialisation, table after the sieve, and the accesses of the sieve
loops with their pass structure, for the bound `n` and the budget `n + 1`. -/
theorem sievePhase_trace (n : Nat) (hn : n ≤ maxAlloc) :
    ∃ (t0 t : Table) (initAccs new : List Access),
      initPhase .exact (n + 1) n = .ok t0 ∧ sievePhase .exact (n + 1) n = .ok t ∧
      t0.log = initAccs.reverse ∧ t0.cells = replay (mkArray n false) initAccs ∧
      (∀ a, a ∈ initAccs → ∃ j : Int, a = Access.write j true) ∧
      t.log = new.reverse ++ t0.log ∧ t.cells = replay t0.cells new ∧
      t0.cells.size = n ∧ t.cells.size = n ∧
      (∀ j, j < n → (t.flag j = false ↔ hasSmallDivisor j)) ∧
      (∀ a, a ∈ new → a.sieveLike) ∧
      (∀ q, 2 ≤ q → q * q < n → ∃ k, new[k]? = some (Access.read (q : Int)) ∧
        SieveInv n q ⟨replay t0.cells (new.take k), []⟩ ∧
        ∀ c, (replay t0.cells (new.take k)).getD q false = true → q ∣ c → q * q ≤ c → c < n →
          (c : Int) ∈ passWrites q new) ∧
      (∀ (r x : Int), x ∈ passWrites r new →
        ∃ rn xn : Nat, r = rn ∧ x = xn ∧ 2 ≤ rn ∧ rn ∣ xn) := by
  obtain ⟨t0, t, e0, es, e, inv0, s, f⟩ := sievePhase_spec n (n + 1) hn (Nat.lt_succ_self n)
  obtain ⟨t', new, e', l', c', sl', _, Q', R'⟩ :=
    sieveLoop_trace n (n + 1) (Nat.lt_succ_self n) (n + 1) 2 t0 (le_refl 2) inv0 (by omega)
  have htt : t' = t := by
    have e2 : sieveLoop .exact n (n + 1) (n + 1) 2 t0 = .ok t' := by exact_mod_cast e'
    rw [es] at e2
    injection e2 with h
    exact h.symm
  subst htt
  obtain ⟨t0', initAccs, ei, li, ci, wi⟩ :=
    initLoop_trace n (n + 1) 0 ⟨mkArray n false, []⟩ (by simp) (by omega)
  have h00 : t0' = t0 := by
    have e2 : initPhase .exact (n + 1) n = .ok t0' := by
      unfold initPhase
      rw [make_nat n hn]
      simp only [ok_bind]
      exact_mod_cast ei
    rw [e0] at e2
    injection e2 with h
    exact h.symm
  subst h00
  exact ⟨t0', t', initAccs, new, e0, e, by simpa using li, ci, wi, l', c', inv0.1, s, f, sl',
    Q', R'⟩

/-! ## Writes of `false` never set a flag again -/

theorem getElem?_setD (a : Array Bool) (i j : Nat) (v : Bool) (h : i < a.size) :
    (a.setD i v)[j]? = if j = i then some v else a[j]? := by
  by_cases hji : j = i
  · subst hji
    simp [Array.getElem?_setD_eq a h v]
  · simp only [hji, if_false]
    simp [Array.setD, h, Array.getElem?_eq_getElem?_toList, List.getElem?_set_ne (Ne.symm hji)]

theorem applyAccess_keeps_false (cells : Array Bool) (a : Access)
    (ha : ∀ i v, a = Access.write i v → v = false) (j : Nat) (hj : cells[j]? = some false) :
    (applyAccess cells a)[j]? = some false := by
  cases a with
  | read i => exact hj
  | write i v =>
    have hv : v = false := ha i v rfl
    subst hv
    simp only [applyAccess]
    split
    · by_cases hin : i.toNat < cells.size
      · rw [getElem?_setD _ _ _ _ hin]
        split
        · rfl
        · exact hj
      · have hset : cells.setD i.toNat false = cells := by simp [Array.setD, hin]
        rw [hset]
        exact hj
    · exact hj

theorem replay_keeps_false (cells : Array Bool) (xs : List Access)
    (hxs : ∀ a, a ∈ xs → ∀ i v, a = Access.write i v → v = false) (j : Nat)
    (hj : cells[j]? = some false) : (replay cells xs)[j]? = some false := by
  induction xs generalizing cells with
  | nil => exact hj
  | cons a rest ih =>
    rw [replay_cons]
    apply ih
    · intro b hb
      exact hxs b (List.mem_cons_of_mem a hb)
    · exact applyAccess_keeps_false cells a (hxs a (List.mem_cons_self a rest)) j hj

theorem getElem?_of_getD (a : Array Bool) (i : Nat) (b : Bool) (hi : i < a.size)
    (hb : a.getD i false = b) : a[i]? = some b := by
  rw [Array.getD_eq_get?] at hb
  rw [Array.getElem?_eq_getElem hi] at hb ⊢
  simpa using hb

theorem take_split {α : Type} (xs : List α) (s k : Nat) (h : s ≤ k) :
    xs.take k = xs.take s ++ (xs.take k).drop s := by
  have h1 : (xs.take k).take s = xs.take s := by
    rw [List.take_take, Nat.min_eq_left h]
  rw [← h1, List.take_append_drop]

theorem replay_reads (cells : Array Bool) (xs : List Access)
    (hxs : ∀ a, a ∈ xs → ∃ j : Int, a = Access.read j ∧ (2 : Int) ≤ j) :
    replay cells xs = cells := by
  induction xs with
  | nil => rfl
  | cons a rest ih =>
    obtain ⟨j, rfl, _⟩ := hxs a (List.mem_cons_self a rest)
    rw [replay_cons]
    exact ih fun b hb => hxs b (List.mem_cons_of_mem _ hb)

end Hello

namespace Hello

/-! ## The 64-bit run against the run over unbounded integers, for every bound -/

theorem wrap64_add (a b : Int) : wrap64 (wrap64 a + b) = wrap64 (a + b) := by
  unfold wrap64
  omega

theorem wrap64_zero : wrap64 0 = 0 := by decide

theorem map_ok {α β : Type} (f : α → β) (a : α) :
    (Except.ok a : Except Fault α).map f = .ok (f a) := rfl

theorem map_error {α β : Type} (f : α → β) (e : Fault) :
    (Except.error e : Except Fault α).map f = .error e := rfl

/-- The 64-bit summation loop returns the wrapped sum of the unbounded loop and makes the
same accesses, as long as the bound is allocatable. -/
theorem sumLoop_wrap (hi : Int) (hhi : hi ≤ 281474976710656) (fuel : Nat) (p s : Int)
    (t : Table) :
    sumLoop .wrap hi fuel p (wrap64 s) t =
      (sumLoop .exact hi fuel p s t).map fun r => (wrap64 r.1, r.2) := by
  induction fuel generalizing p s t with
  | zero => rfl
  | succ fuel ih =>
    rw [sumLoop, sumLoop]
    by_cases hc : p < hi
    · rw [if_pos hc, if_pos hc]
      cases hl : load t p with
      | error e => rfl
      | ok r =>
        obtain ⟨flag, t1⟩ := r
        have h0 := (load_inv hl).2.2.1
        rw [ok_bind, ok_bind]
        simp only [norm_exact, norm_of_inInt64 .wrap (p + 1) (by unfold inInt64; omega), ok_bind]
        cases flag with
        | true =>
          simp only [if_true]
          have hn : IntMode.norm .wrap (wrap64 s + p) = .ok (wrap64 (s + p)) := by
            simp only [IntMode.norm, wrap64_add]
          rw [hn, ok_bind]
          exact ih _ _ _
        | false =>
          simp only [Bool.false_eq_true, if_false]
          exact ih _ _ _
    · rw [if_neg hc, if_neg hc]
      rfl

theorem sieveLoopNaive_mode (m : IntMode) (hi : Int) (hhi : hi ≤ 281474976710656)
    (inner fuel : Nat) (p : Int) (hp0 : 0 ≤ p) (hp : p ≤ 16777216) (t : Table) :
    sieveLoopNaive m hi inner fuel p t = sieveLoopNaive .exact hi inner fuel p t := by
  induction fuel generalizing p t with
  | zero => rfl
  | succ fuel ih =>
    have hpp : inInt64 (p * p) := by
      unfold inInt64
      constructor <;> nlinarith
    rw [sieveLoopNaive, sieveLoopNaive]
    simp only [norm_exact, norm_of_inInt64 m (p * p) hpp, ok_bind]
    by_cases hc : p * p < hi
    · have hp1 : p + 1 ≤ 16777216 := by
        by_contra hcon
        have : p = 16777216 := by omega
        subst this
        omega
      rw [if_pos hc, if_pos hc]
      simp only [norm_exact, norm_of_inInt64 m (p + 1) (by unfold inInt64; omega), ok_bind]
      rw [markLoop_mode m hi p hhi hp0 (by omega) inner (p * p) t]
      cases hm : markLoop .exact hi p inner (p * p) t with
      | error e => rfl
      | ok t2 =>
        simp only [ok_bind]
        exact ih _ (by omega) hp1 _
    · rw [if_neg hc, if_neg hc]

theorem maxAlloc_eq : (maxAlloc : Int) = 281474976710656 := rfl

/-- In every integer mode and for every bound the table after the initialisation is the one
of the run over unbounded integers (above the allocation limit both runs panic). -/
theorem initPhase_mode (m : IntMode) (fuel : Nat) (hi : Int) :
    initPhase m fuel hi = initPhase .exact fuel hi := by
  unfold initPhase
  cases h0 : make hi with
  | error e => rfl
  | ok t0 =>
    have hr := (make_ok_range h0).2.1
    rw [maxAlloc_eq] at hr
    rw [ok_bind, ok_bind, initLoop_mode m hi hr]

theorem initPhase_ok_range {m : IntMode} {fuel : Nat} {hi : Int} {t : Table}
    (h : initPhase m fuel hi = .ok t) : 0 ≤ hi ∧ hi ≤ 281474976710656 := by
  unfold initPhase at h
  obtain ⟨t0, h0, _⟩ := (bind_eq_ok _ _ _).1 h
  have hr := make_ok_range h0
  rw [maxAlloc_eq] at hr
  exact ⟨hr.1, hr.2.1⟩

theorem sievePhase_mode (m : IntMode) (fuel : Nat) (hi : Int) :
    sievePhase m fuel hi = sievePhase .exact fuel hi := by
  unfold sievePhase
  rw [initPhase_mode m]
  cases h0 : initPhase .exact fuel hi with
  | error e => rfl
  | ok t0 =>
    rw [ok_bind, ok_bind,
      sieveLoop_mode m hi (initPhase_ok_range h0).2 fuel fuel 2 (by omega) (by omega)]

theorem sievePhaseNaive_mode (m : IntMode) (fuel : Nat) (hi : Int) :
    sievePhaseNaive m fuel hi = sievePhaseNaive .exact fuel hi := by
  unfold sievePhaseNaive
  rw [initPhase_mode m]
  cases h0 : initPhase .exact fuel hi with
  | error e => rfl
  | ok t0 =>
    rw [ok_bind, ok_bind,
      sieveLoopNaive_mode m hi (initPhase_ok_range h0).2 fuel fuel 2 (by omega) (by omega)]

theorem sievePhase_ok_range {m : IntMode} {fuel : Nat} {hi : Int} {t : Table}
    (h : sievePhase m fuel hi = .ok t) : 0 ≤ hi ∧ hi ≤ 281474976710656 := by
  unfold sievePhase at h
  obtain ⟨t0, h0, _⟩ := (bind_eq_ok _ _ _).1 h
  exact initPhase_ok_range h0

/-- For every bound the 64-bit run makes the accesses of the run over unbounded integers
and returns its sum wrapped into the signed 64-bit range. -/
theorem run_wrap (fuel : Nat) (hi : Int) :
    sumOfPrimesRun .wrap fuel hi =
      (sumOfPrimesRun .exact fuel hi).map fun r => (wrap64 r.1, r.2) := by
  rw [run_eq_sievePhase, run_eq_sievePhase, sievePhase_mode .wrap]
  cases h0 : sievePhase .exact fuel hi with
  | error e => rfl
  | ok t =>
    rw [ok_bind, ok_bind]
    have := sumLoop_wrap hi (sievePhase_ok_range h0).2 fuel 2 0 t
    rw [wrap64_zero] at this
    exact this

theorem naiveRun_wrap (fuel : Nat) (hi : Int) :
    sumOfPrimesNaiveRun .wrap fuel hi =
      (sumOfPrimesNaiveRun .exact fuel hi).map fun r => (wrap64 r.1, r.2) := by
  unfold sumOfPrimesNaiveRun
  rw [sievePhaseNaive_mode .wrap]
  cases h0 : sievePhaseNaive .exact fuel hi with
  | error e => rfl
  | ok t =>
    rw [ok_bind, ok_bind]
    have hr : hi ≤ 281474976710656 := by
      unfold sievePhaseNaive at h0
      obtain ⟨t0, h1, _⟩ := (bind_eq_ok _ _ _).1 h0
      exact (initPhase_ok_range h1).2
    have := sumLoop_wrap hi hr fuel 2 0 t
    rw [wrap64_zero] at this
    exact this

/-- Above the allocation limit the run panics in `make`, whatever the mode and the budget. -/
theorem run_large (m : IntMode) (fuel : Nat) (hi : Int) (h : (maxAlloc : Int) < hi) :
    sumOfPrimesRun m fuel hi = .error (.lenOutOfRange hi) := by
  unfold sumOfPrimesRun
  rw [make_large hi h]
  rfl

theorem sievePhase_large (m : IntMode) (fuel : Nat) (hi : Int) (h : (maxAlloc : Int) < hi) :
    initPhase m fuel hi = .error (.lenOutOfRange hi) ∧
      sievePhase m fuel hi = .error (.lenOutOfRange hi) := by
  have h1 : initPhase m fuel hi = .error (.lenOutOfRange hi) := by
    unfold initPhase
    rw [make_large hi h]
    rfl
  refine ⟨h1, ?_⟩
  unfold sievePhase
  rw [h1]
  rfl

theorem primeSumBelow_le (n : Nat) : 2 * primeSumBelow n ≤ n * (n - 1) := by
  unfold primeSumBelow
  have h1 : ∑ p in (Finset.range n).filter Nat.Prime, p ≤ ∑ p in Finset.range n, p :=
    Finset.sum_le_sum_of_subset (Finset.filter_subset _ _)
  have h2 := Finset.sum_range_id_mul_two n
  omega

theorem wrap64_primeSumBelow (n : Nat) (hn : n ≤ 4294967296) :
    wrap64 ((primeSumBelow n : Nat) : Int) = ((primeSumBelow n : Nat) : Int) := by
  apply wrap64_of_inInt64
  have h1 := primeSumBelow_le n
  have h2 : n * (n - 1) ≤ 4294967296 * (4294967296 - 1) :=
    Nat.mul_le_mul hn (Nat.sub_le_sub_right hn 1)
  unfold inInt64
  constructor
  · have : (0 : Int) ≤ ((primeSumBelow n : Nat) : Int) := Int.natCast_nonneg _
    omega
  · have : primeSumBelow n < 9223372036854775808 := by omega
    have h3 : ((primeSumBelow n : Nat) : Int) < 9223372036854775808 := by exact_mod_cast this
    omega

end Hello

namespace Hello

/-! ## The run on the heap against the run on its own table -/

theorem getElem?_append_last (pre : List (Array Bool)) (c : Array Bool) :
    (pre ++ [c])[pre.length]? = some c := by
  rw [List.getElem?_append_right (le_refl _)]
  simp

theorem set_append_last (pre : List (Array Bool)) (c c' : Array Bool) :
    (pre ++ [c]).set pre.length c' = pre ++ [c'] := by
  induction pre with
  | nil => rfl
  | cons a rest ih =>
    simp only [List.cons_append, List.length_cons, List.set_cons_succ, ih]

theorem heap_store_sim (pre : List (Array Bool)) (t : Table) (i : Int) (v : Bool) :
    Heap.store ⟨pre ++ [t.cells]⟩ pre.length i v =
      (store t i v).map fun t' => (⟨pre ++ [t'.cells]⟩ : Heap) := by
  unfold Heap.store store
  simp only [getElem?_append_last]
  by_cases hc : 0 ≤ i ∧ i.toNat < t.cells.size
  · rw [if_pos hc, if_pos hc, set_append_last]
    rfl
  · rw [if_neg hc, if_neg hc]
    rfl

theorem heap_load_sim (pre : List (Array Bool)) (t : Table) (i : Int) :
    Heap.load ⟨pre ++ [t.cells]⟩ pre.length i = (load t i).map fun r => r.1 := by
  unfold Heap.load load
  simp only [getElem?_append_last]
  by_cases hc : 0 ≤ i ∧ i.toNat < t.cells.size
  · rw [if_pos hc, if_pos hc]
    rfl
  · rw [if_neg hc, if_neg hc]
    rfl

theorem initLoopOn_sim (m : IntMode) (hi : Int) (pre : List (Array Bool)) (fuel : Nat)
    (i : Int) (t : Table) :
    initLoopOn m hi pre.length fuel i ⟨pre ++ [t.cells]⟩ =
      (initLoop m hi fuel i t).map fun t' => (⟨pre ++ [t'.cells]⟩ : Heap) := by
  induction fuel generalizing i t with
  | zero => rfl
  | succ fuel ih =>
    rw [initLoopOn, initLoop]
    by_cases hc : i < hi
    · rw [if_pos hc, if_pos hc, heap_store_sim]
      cases hs : store t i true with
      | error e => rfl
      | ok t1 =>
        rw [map_ok, ok_bind, ok_bind]
        cases hn : m.norm (i + 1) with
        | error e => rfl
        | ok i1 =>
          rw [ok_bind, ok_bind]
          exact ih _ _
    · rw [if_neg hc, if_neg hc]
      rfl

theorem markLoopOn_sim (m : IntMode) (hi p : Int) (pre : List (Array Bool)) (fuel : Nat)
    (c : Int) (t : Table) :
    markLoopOn m hi p pre.length fuel c ⟨pre ++ [t.cells]⟩ =
      (markLoop m hi p fuel c t).map fun t' => (⟨pre ++ [t'.cells]⟩ : Heap) := by
  induction fuel generalizing c t with
  | zero => rfl
  | succ fuel ih =>
    rw [markLoopOn, markLoop]
    by_cases hc : c < hi
    · rw [if_pos hc, if_pos hc, heap_store_sim]
      cases hs : store t c false with
      | error e => rfl
      | ok t1 =>
        rw [map_ok, ok_bind, ok_bind]
        cases hn : m.norm (c + p) with
        | error e => rfl
        | ok c1 =>
          rw [ok_bind, ok_bind]
          exact ih _ _
    · rw [if_neg hc, if_neg hc]
      rfl

theorem sieveLoopOn_sim (m : IntMode) (hi : Int) (pre : List (Array Bool)) (inner fuel : Nat)
    (p : Int) (t : Table) :
    sieveLoopOn m hi pre.length inner fuel p ⟨pre ++ [t.cells]⟩ =
      (sieveLoop m hi inner fuel p t).map fun t' => (⟨pre ++ [t'.cells]⟩ : Heap) := by
  induction fuel generalizing p t with
  | zero => rfl
  | succ fuel ih =>
    rw [sieveLoopOn, sieveLoop]
    cases hpp : m.norm (p * p) with
    | error e => rfl
    | ok pp =>
      simp only [ok_bind]
      by_cases hc : pp < hi
      · rw [if_pos hc, if_pos hc, heap_load_sim]
        cases hl : load t p with
        | error e => rfl
        | ok r =>
          obtain ⟨flag, t1⟩ := r
          have hcells : t1.cells = t.cells := (load_inv hl).1
          rw [map_ok, ok_bind, ok_bind]
          simp only
          rw [← hcells]
          cases flag with
          | false =>
            simp only [Bool.not_false, if_true]
            cases hn : m.norm (p + 1) with
            | error e => rfl
            | ok p1 =>
              rw [ok_bind, ok_bind]
              exact ih _ _
          | true =>
            simp only [Bool.not_true, Bool.false_eq_true, if_false]
            rw [markLoopOn_sim]
            cases hm : markLoop m hi p inner pp t1 with
            | error e => rfl
            | ok t2 =>
              rw [map_ok, ok_bind, ok_bind]
              cases hn : m.norm (p + 1) with
              | error e => rfl
              | ok p1 =>
                rw [ok_bind, ok_bind]
                exact ih _ _
      · rw [if_neg hc, if_neg hc]
        rfl

theorem sumLoopOn_sim (m : IntMode) (hi : Int) (pre : List (Array Bool)) (fuel : Nat)
    (p s : Int) (t : Table) :
    sumLoopOn m hi pre.length fuel p s ⟨pre ++ [t.cells]⟩ =
      (sumLoop m hi fuel p s t).map fun r => (r.1, (⟨pre ++ [r.2.cells]⟩ : Heap)) := by
  induction fuel generalizing p s t with
  | zero => rfl
  | succ fuel ih =>
    rw [sumLoopOn, sumLoop]
    by_cases hc : p < hi
    · rw [if_pos hc, if_pos hc, heap_load_sim]
      cases hl : load t p with
      | error e => rfl
      | ok r =>
        obtain ⟨flag, t1⟩ := r
        have hcells : t1.cells = t.cells := (load_inv hl).1
        rw [map_ok, ok_bind, ok_bind]
        simp only
        rw [← hcells]
        cases flag with
        | true =>
          simp only [if_true]
          cases hs : m.norm (s + p) with
          | error e => rfl
          | ok s1 =>
            rw [ok_bind, ok_bind]
            cases hn : m.norm (p + 1) with
            | error e => rfl
            | ok p1 =>
              rw [ok_bind, ok_bind]
              exact ih _ _ _
        | false =>
          simp only [Bool.false_eq_true, if_false]
          cases hn : m.norm (p + 1) with
          | error e => rfl
          | ok p1 =>
            rw [ok_bind, ok_bind]
            exact ih _ _ _
    · rw [if_neg hc, if_neg hc]
      rfl

/-- On every heap the run returns what the run on its own table returns, keeps the slices
that were there, and leaves its table behind as one more slice. -/
theorem run_on_heap (m : IntMode) (fuel : Nat) (h : Heap) (hi : Int) :
    sumOfPrimesOn m fuel h hi =
      (sumOfPrimesRun m fuel hi).map fun r => (r.1, (⟨h.slices ++ [r.2.cells]⟩ : Heap)) := by
  unfold sumOfPrimesOn sumOfPrimesRun Heap.alloc make
  by_cases h1 : hi < 0
  · rw [if_pos h1, if_pos h1]
    rfl
  · rw [if_neg h1, if_neg h1]
    by_cases h2 : (maxAlloc : Int) < hi
    · rw [if_pos h2, if_pos h2]
      rfl
    · rw [if_neg h2, if_neg h2]
      simp only [ok_bind]
      have e1 := initLoopOn_sim m hi h.slices fuel 0 ⟨mkArray hi.toNat false, []⟩
      simp only at e1
      rw [e1]
      cases hl1 : initLoop m hi fuel 0 ⟨mkArray hi.toNat false, []⟩ with
      | error e => rfl
      | ok t1 =>
        rw [map_ok, ok_bind, ok_bind, sieveLoopOn_sim]
        cases hl2 : sieveLoop m hi fuel fuel 2 t1 with
        | error e => rfl
        | ok t2 =>
          rw [map_ok, ok_bind, ok_bind, sumLoopOn_sim]

end Hello

namespace Hello

/-! ## The function on allocatable bounds and above the allocation limit -/

theorem budget_nat (n : Nat) : budget (n : Int) = n + 1 := by simp [budget]

/-- On an allocatable bound the 64-bit run returns the wrapped prime sum, with the table and
the accesses of the run over unbounded integers. -/
theorem run64_nat (n fuel : Nat) (hn : n ≤ maxAlloc) (hfuel : n < fuel) :
    ∃ t, sumOfPrimesRun .wrap fuel n = .ok (wrap64 ((primeSumBelow n : Nat) : Int), t) ∧
      sumOfPrimesRun .exact fuel n = .ok (((primeSumBelow n : Nat) : Int), t) ∧
      t.cells.size = n ∧ ∀ j, j < n → (t.flag j = false ↔ hasSmallDivisor j) := by
  obtain ⟨t, hrun, hs, hf⟩ := run_spec n fuel hn hfuel
  refine ⟨t, ?_, hrun, hs, hf⟩
  rw [run_wrap, hrun]
  rfl

theorem sumOfPrimes_nat (n : Nat) (hn : n ≤ maxAlloc) :
    sumOfPrimes (n : Int) = .ok (wrap64 ((primeSumBelow n : Nat) : Int)) := by
  obtain ⟨t, h, _⟩ := run64_nat n (n + 1) hn (Nat.lt_succ_self n)
  unfold sumOfPrimes sumOfPrimes64
  rw [budget_nat, h]
  rfl

theorem sumOfPrimes_below_overflow (n : Nat) (hn : n ≤ 4294967296) :
    sumOfPrimes (n : Int) = .ok ((primeSumBelow n : Nat) : Int) := by
  have hn' : n ≤ maxAlloc := by unfold maxAlloc; omega
  rw [sumOfPrimes_nat n hn', wrap64_primeSumBelow n hn]

theorem sumOfPrimes_large (hi : Int) (h : (maxAlloc : Int) < hi) :
    sumOfPrimes hi = .error (.lenOutOfRange hi) := by
  unfold sumOfPrimes sumOfPrimes64
  rw [run_large _ _ _ h]
  rfl

theorem primeSumBelow_mono {a b : Nat} (h : a ≤ b) : primeSumBelow a ≤ primeSumBelow b := by
  unfold primeSumBelow
  apply Finset.sum_le_sum_of_subset
  exact Finset.filter_subset_filter _ (Finset.range_mono h)

theorem nat_le_maxAlloc {n : Nat} (h : (n : Int) ≤ (maxAlloc : Int)) : n ≤ maxAlloc := by
  exact_mod_cast h

end Hello

namespace Hello

/-! ## The contract of `sumOfPrimes` -/

/-- C1, as stated, fails at the bound `2^62`: a table of that length cannot be allocated,
the call panics in `make` and returns no sum. -/
theorem huge_bound_returns_no_sum :
    (0 : Int) ≤ 4611686018427387904 ∧
      sumOfPrimes 4611686018427387904 = .error (.lenOutOfRange 4611686018427387904) ∧
      sumOfPrimes 4611686018427387904 ≠
        .ok ((primeSumBelow (4611686018427387904 : Int).toNat : Nat) : Int) := by
  have h : sumOfPrimes 4611686018427387904 = .error (.lenOutOfRange 4611686018427387904) :=
    sumOfPrimes_large _ (by unfold maxAlloc; decide)
  refine ⟨by decide, h, ?_⟩
  rw [h]
  exact fun hcon => absurd hcon (by simp)

/-- C1, amended: for every bound with `0 ≤ bound ≤ 2^32`, `sumOfPrimes` returns the sum of
all primes `p < bound`; for every bound up to `2^48`, the largest table the runtime
allocates, it returns that sum wrapped into the signed 64-bit range; above `2^48` the
allocation panics and no sum is returned. -/
theorem sumOfPrimes_eq_primeSumBelow (bound : Int) (h : 0 ≤ bound) :
    (bound ≤ 2 ^ 32 → sumOfPrimes bound = .ok ((primeSumBelow bound.toNat : Nat) : Int)) ∧
      (bound ≤ 2 ^ 48 →
        sumOfPrimes bound = .ok (wrap64 ((primeSumBelow bound.toNat : Nat) : Int))) ∧
      (2 ^ 48 < bound → sumOfPrimes bound = .error (.lenOutOfRange bound)) := by
  obtain ⟨n, rfl⟩ := Int.eq_ofNat_of_zero_le h
  rw [Int.toNat_ofNat]
  refine ⟨fun hle => ?_, fun hle => ?_, fun hlt => ?_⟩
  · have hn : n ≤ 4294967296 := by norm_num at hle; exact_mod_cast hle
    exact sumOfPrimes_below_overflow n hn
  · have hn : n ≤ maxAlloc := by unfold maxAlloc; norm_num at hle; exact_mod_cast hle
    exact sumOfPrimes_nat n hn
  · apply sumOfPrimes_large
    rw [maxAlloc_eq]
    norm_num at hlt
    exact_mod_cast hlt

/-- Instance of the contract at bound 30. -/
theorem sumOfPrimes_eq_primeSumBelow_witness :
    (0 : Int) ≤ 30 ∧ sumOfPrimes 30 = .ok ((primeSumBelow (30 : Int).toNat : Nat) : Int) :=
  ⟨by decide, (sumOfPrimes_eq_primeSumBelow 30 (by decide)).1 (by decide)⟩

/-- C2, as stated, fails at bound 1: the function returns 0 there, but its initialisation
loop writes index 0 of the table, so the run does touch a table index. -/
theorem bound_one_writes_index_zero :
    sumOfPrimes 1 = .ok 0 ∧ accessesOf 1 = .ok [Access.write 0 true] ∧
      accessesOf 1 ≠ .ok [] := by
  refine ⟨rfl, rfl, ?_⟩
  intro h
  have h2 : accessesOf 1 = .ok [Access.write 0 true] := rfl
  rw [h2] at h
  injection h with h
  exact absurd h (by simp)

/-- C2, amended: for the bounds 0 and 1 `sumOfPrimes` returns 0; with bound 0 no table index
is touched, with bound 1 the only access is the initialisation write `arr[0] = true`. -/
theorem sumOfPrimes_small_bound (b : Int) (h0 : 0 ≤ b) (h1 : b ≤ 1) :
    sumOfPrimes b = .ok 0 ∧
      accessesOf b = .ok (if b = 1 then [Access.write 0 true] else []) := by
  rcases (by omega : b = 0 ∨ b = 1) with h | h
  · subst h
    exact ⟨rfl, rfl⟩
  · subst h
    exact ⟨rfl, rfl⟩

/-- Instance of the amended statement at bound 0. -/
theorem sumOfPrimes_small_bound_witness :
    sumOfPrimes 0 = .ok 0 ∧
      accessesOf 0 = .ok (if (0 : Int) = 1 then [Access.write 0 true] else []) :=
  sumOfPrimes_small_bound 0 (by decide) (by decide)

/-- C3: `sumOfPrimes(100)` returns 1060, the sum of the 25 primes 2, 3, 5, ..., 97. -/
theorem sumOfPrimes_hundred :
    sumOfPrimes 100 = .ok 1060 ∧
      (List.range 100).filter (fun p => decide (Nat.Prime p)) =
        [2, 3, 5, 7, 11, 13, 17, 19, 23, 29, 31, 37, 41, 43, 47, 53, 59, 61, 67, 71, 73, 79,
          83, 89, 97] ∧
      ([2, 3, 5, 7, 11, 13, 17, 19, 23, 29, 31, 37, 41, 43, 47, 53, 59, 61, 67, 71, 73, 79,
          83, 89, 97] : List Nat).length = 25 ∧
      ([2, 3, 5, 7, 11, 13, 17, 19, 23, 29, 31, 37, 41, 43, 47, 53, 59, 61, 67, 71, 73, 79,
          83, 89, 97] : List Nat).sum = 1060 := by
  refine ⟨rfl, by decide, by decide, by decide⟩

/-- C4: on the small bounds 2, 3 and 10 `sumOfPrimes` returns 0, 2 and 17. -/
theorem sumOfPrimes_small_values :
    sumOfPrimes 2 = .ok 0 ∧ sumOfPrimes 3 = .ok 2 ∧ sumOfPrimes 10 = .ok 17 :=
  ⟨rfl, rfl, rfl⟩

/-- C5, as stated, fails for the bounds `3 < 2^62`: the call on 3 returns 2, the call on
`2^62` panics in `make` and returns no value to compare with. -/
theorem monotonicity_fails_at_huge_bound :
    (0 : Int) ≤ 3 ∧ (3 : Int) < 4611686018427387904 ∧ sumOfPrimes 3 = .ok 2 ∧
      ¬ ∃ v1 v2, sumOfPrimes 3 = .ok v1 ∧ sumOfPrimes 4611686018427387904 = .ok v2 ∧
        v1 ≤ v2 := by
  refine ⟨by decide, by decide, rfl, ?_⟩
  rintro ⟨v1, v2, _, h2, _⟩
  rw [sumOfPrimes_large _ (by unfold maxAlloc; decide)] at h2
  exact absurd h2 (by simp)

/-- C5, amended: `sumOfPrimes` is monotone on the bounds where the sum cannot overflow: for
`0 ≤ b1 < b2 ≤ 2^32` both calls return, and the value for `b1` is at most the value
for `b2`. -/
theorem sumOfPrimes_monotone (b1 b2 : Int) (h0 : 0 ≤ b1) (h : b1 < b2) (h2 : b2 ≤ 2 ^ 32) :
    ∃ v1 v2, sumOfPrimes b1 = .ok v1 ∧ sumOfPrimes b2 = .ok v2 ∧ v1 ≤ v2 := by
  obtain ⟨n1, rfl⟩ := Int.eq_ofNat_of_zero_le h0
  obtain ⟨n2, rfl⟩ := Int.eq_ofNat_of_zero_le (le_trans h0 (le_of_lt h))
  have hn2 : n2 ≤ 4294967296 := by norm_num at h2; exact_mod_cast h2
  have hle : n1 ≤ n2 := by omega
  refine ⟨_, _, sumOfPrimes_below_overflow n1 (by omega), sumOfPrimes_below_overflow n2 hn2, ?_⟩
  exact_mod_cast primeSumBelow_mono hle

/-- Instance of monotonicity at the bounds 3 and 10. -/
theorem sumOfPrimes_monotone_witness :
    ∃ v1 v2, sumOfPrimes 3 = .ok v1 ∧ sumOfPrimes 10 = .ok v2 ∧ v1 ≤ v2 :=
  sumOfPrimes_monotone 3 10 (by decide) (by decide) (by decide)

/-- C6, as stated, fails at the bound `2^63 - 1`: the allocation panics, so no value is
returned (no table access is made either). -/
theorem no_value_at_largest_int :
    (0 : Int) ≤ 9223372036854775807 ∧
      sumOfPrimesRun .wrap (budget 9223372036854775807) 9223372036854775807 =
        .error (.lenOutOfRange 9223372036854775807) ∧
      ∀ v, sumOfPrimes 9223372036854775807 ≠ .ok v := by
  refine ⟨by decide, run_large _ _ _ (by unfold maxAlloc; decide), fun v hv => ?_⟩
  rw [sumOfPrimes_large _ (by unfold maxAlloc; decide)] at hv
  exact absurd hv (by simp)

/-- C6, amended: for every bound with `0 ≤ bound ≤ 2^48` the run returns a value, the table
has length `bound`, and every access made to it (initialisation writes, sieve reads and
writes, summation reads) uses an index in `[0, bound)`; above `2^48` the allocation panics
before any access; for no bound `≥ 0` does an access fall outside the table. -/
theorem accesses_within_table (bound : Int) (h : 0 ≤ bound) :
    (bound ≤ (maxAlloc : Int) →
      ∃ v t, sumOfPrimesRun .wrap (budget bound) bound = .ok (v, t) ∧
        sumOfPrimes bound = .ok v ∧ accessesOf bound = .ok t.log.reverse ∧
        (t.cells.size : Int) = bound ∧
        ∀ a, a ∈ t.log.reverse → 0 ≤ a.idx ∧ a.idx < bound) ∧
      ((maxAlloc : Int) < bound →
        sumOfPrimesRun .wrap (budget bound) bound = .error (.lenOutOfRange bound) ∧
        accessesOf bound = .error (.lenOutOfRange bound)) ∧
      (∀ e, sumOfPrimes bound = .error e → e = .lenOutOfRange bound) := by
  have hbig : (maxAlloc : Int) < bound →
      sumOfPrimesRun .wrap (budget bound) bound = .error (.lenOutOfRange bound) ∧
      accessesOf bound = .error (.lenOutOfRange bound) := by
    intro hlt
    have hr := run_large .wrap (budget bound) bound hlt
    refine ⟨hr, ?_⟩
    unfold accessesOf
    rw [hr]
    rfl
  have hsmall : bound ≤ (maxAlloc : Int) →
      ∃ v t, sumOfPrimesRun .wrap (budget bound) bound = .ok (v, t) ∧
        sumOfPrimes bound = .ok v ∧ accessesOf bound = .ok t.log.reverse ∧
        (t.cells.size : Int) = bound ∧
        ∀ a, a ∈ t.log.reverse → 0 ≤ a.idx ∧ a.idx < bound := by
    intro hle
    obtain ⟨n, rfl⟩ := Int.eq_ofNat_of_zero_le h
    obtain ⟨t, hrun, _⟩ := run64_nat n (n + 1) (nat_le_maxAlloc hle) (Nat.lt_succ_self n)
    rw [← budget_nat n] at hrun
    obtain ⟨_, hsz, hlog⟩ := run_log _ _ _ _ _ hrun
    refine ⟨_, t, hrun, ?_, ?_, hsz, fun a ha => hlog a (List.mem_reverse.1 ha)⟩
    · unfold sumOfPrimes sumOfPrimes64
      rw [hrun]
      rfl
    · unfold accessesOf
      rw [hrun]
      rfl
  refine ⟨hsmall, hbig, fun e he => ?_⟩
  by_cases hle : bound ≤ (maxAlloc : Int)
  · obtain ⟨v, t, _, hv, _⟩ := hsmall hle
    rw [hv] at he
    exact absurd he (by simp)
  · rw [sumOfPrimes_large bound (by omega)] at he
    injection he with he
    exact he.symm

/-- Instance of access safety at bound 10. -/
theorem accesses_within_table_witness :
    ∃ v t, sumOfPrimesRun .wrap (budget 10) 10 = .ok (v, t) ∧
      sumOfPrimes 10 = .ok v ∧ accessesOf 10 = .ok t.log.reverse ∧
      (t.cells.size : Int) = 10 ∧
      ∀ a, a ∈ t.log.reverse → 0 ≤ a.idx ∧ a.idx < 10 :=
  (accesses_within_table 10 (by decide)).1 (by unfold maxAlloc; decide)

end Hello

namespace Hello

/-- C7: for every non-negative bound the 64-bit run terminates: within `bound + 1`
evaluations of each loop condition it ends, with a value when the table can be allocated and
with the panic of `make` otherwise, and every larger budget gives the same outcome; the outer
sieve loop stops as soon as `p * p ≥ bound`, and the marking loop with a step `p ≥ 2`,
`p * p < bound`, finishes from every start `c` within `bound + 1` evaluations. -/
theorem sumOfPrimes_terminates (bound : Int) (h : 0 ≤ bound) :
    (∃ outcome, outcome ≠ .error .outOfFuel ∧
      ∀ fuel, bound.toNat + 1 ≤ fuel → sumOfPrimesRun .wrap fuel bound = outcome) ∧
    (bound ≤ (maxAlloc : Int) →
      ∃ r, ∀ fuel, bound.toNat + 1 ≤ fuel → sumOfPrimesRun .wrap fuel bound = .ok r) ∧
    (∀ (inner fuel : Nat) (p : Int) (t : Table), 0 ≤ p → p ≤ 2 ^ 31 → bound ≤ p * p →
      sieveLoop .wrap bound inner (fuel + 1) p t = .ok t) ∧
    (∀ (p c : Nat) (t : Table), 2 ≤ p → ((p * p : Nat) : Int) < bound →
      bound ≤ (maxAlloc : Int) → t.cells.size = bound.toNat →
      ∃ t', markLoop .wrap bound p (bound.toNat + 1) c t = .ok t') := by
  obtain ⟨n, rfl⟩ := Int.eq_ofNat_of_zero_le h
  have hok : (n : Int) ≤ (maxAlloc : Int) →
      ∃ r, ∀ fuel, (n : Int).toNat + 1 ≤ fuel → sumOfPrimesRun .wrap fuel n = .ok r := by
    intro hle
    obtain ⟨t, hrun, _⟩ := run64_nat n (n + 1) (nat_le_maxAlloc hle) (Nat.lt_succ_self n)
    refine ⟨_, fun fuel hf => run_fuel_mono .wrap (n + 1) fuel ?_ _ _ hrun⟩
    simpa using hf
  refine ⟨?_, hok, ?_, ?_⟩
  · by_cases hle : (n : Int) ≤ (maxAlloc : Int)
    · obtain ⟨r, hr⟩ := hok hle
      exact ⟨.ok r, by simp, hr⟩
    · exact ⟨.error (.lenOutOfRange n), by simp,
        fun fuel _ => run_large .wrap fuel n (by omega)⟩
  · intro inner fuel p t hp0 hp hpp
    have hp' : p ≤ 2147483648 := by norm_num at hp; exact hp
    have hin : inInt64 (p * p) := by
      unfold inInt64
      constructor <;> nlinarith
    rw [sieveLoop, norm_of_inInt64 .wrap (p * p) hin, ok_bind, if_neg (not_lt.2 hpp)]
  · intro p c t hp hpp hle hsz
    have hn := nat_le_maxAlloc hle
    have hppn : p * p < n := by exact_mod_cast hpp
    have hpn : p ≤ n := le_trans (Nat.le_mul_self p) (le_of_lt hppn)
    have hn' : n ≤ 281474976710656 := hn
    rw [markLoop_mode .wrap (n : Int) (p : Int) (by exact_mod_cast hn') (Int.natCast_nonneg p)
      (by exact_mod_cast le_trans hpn hn')]
    obtain ⟨t', ht, _⟩ := markLoop_spec n p (by omega) (n + 1) c t (by simpa using hsz)
      (by omega)
    exact ⟨t', by simpa using ht⟩

/-- Instance of termination at bound 20. -/
theorem sumOfPrimes_terminates_witness :
    (∃ outcome, outcome ≠ .error .outOfFuel ∧
      ∀ fuel, (20 : Int).toNat + 1 ≤ fuel → sumOfPrimesRun .wrap fuel 20 = outcome) ∧
    ((20 : Int) ≤ (maxAlloc : Int) →
      ∃ r, ∀ fuel, (20 : Int).toNat + 1 ≤ fuel → sumOfPrimesRun .wrap fuel 20 = .ok r) ∧
    (∀ (inner fuel : Nat) (p : Int) (t : Table), 0 ≤ p → p ≤ 2 ^ 31 → (20 : Int) ≤ p * p →
      sieveLoop .wrap 20 inner (fuel + 1) p t = .ok t) ∧
    (∀ (p c : Nat) (t : Table), 2 ≤ p → ((p * p : Nat) : Int) < 20 →
      (20 : Int) ≤ (maxAlloc : Int) → t.cells.size = (20 : Int).toNat →
      ∃ t', markLoop .wrap 20 p ((20 : Int).toNat + 1) c t = .ok t') :=
  sumOfPrimes_terminates 20 (by decide)

/-- C8: for every bound `b` with `0 ≤ b ≤ 2^31` no integer formed by the run (`p*p`, `c`,
`c+p`, the running sum, the counters) leaves the signed 64-bit range: the overflow-checking
run returns the value, and the wrap-around run agrees with the unbounded one for every
budget. -/
theorem machine_arithmetic_agrees (b : Int) (h0 : 0 ≤ b) (h1 : b ≤ 2 ^ 31) :
    (∃ t, sumOfPrimesRun .checked (budget b) b = .ok (((primeSumBelow b.toNat : Nat) : Int), t)) ∧
    (∀ fuel, sumOfPrimesRun .checked fuel b = sumOfPrimesRun .exact fuel b) ∧
    (∀ fuel, sumOfPrimesRun .wrap fuel b = sumOfPrimesRun .exact fuel b) ∧
    sumOfPrimes64 (budget b) b = sumOfPrimesExact b ∧
    sumOfPrimes b = sumOfPrimesExact b := by
  have hb : b ≤ 2147483648 := by norm_num at h1; exact h1
  obtain ⟨n, rfl⟩ := Int.eq_ofNat_of_zero_le h0
  have hn : n ≤ maxAlloc := by
    have : n ≤ 2147483648 := by exact_mod_cast hb
    unfold maxAlloc
    omega
  have h4 : sumOfPrimes64 (budget (n : Int)) n = sumOfPrimesExact n := by
    unfold sumOfPrimes64 sumOfPrimesExact
    rw [run_mode _ _ _ hb]
  refine ⟨?_, fun fuel => run_mode _ fuel _ hb, fun fuel => run_mode _ fuel _ hb, h4, h4⟩
  obtain ⟨t, hrun, _⟩ := run_spec n (n + 1) hn (Nat.lt_succ_self n)
  refine ⟨t, ?_⟩
  rw [run_mode _ _ _ hb, budget_nat]
  simpa using hrun

/-- Instance of the agreement at the sample bound 100. -/
theorem machine_arithmetic_agrees_witness :
    (∃ t, sumOfPrimesRun .checked (budget 100) 100 =
      .ok (((primeSumBelow (100 : Int).toNat : Nat) : Int), t)) ∧
    (∀ fuel, sumOfPrimesRun .checked fuel 100 = sumOfPrimesRun .exact fuel 100) ∧
    (∀ fuel, sumOfPrimesRun .wrap fuel 100 = sumOfPrimesRun .exact fuel 100) ∧
    sumOfPrimes64 (budget 100) 100 = sumOfPrimesExact 100 ∧
    sumOfPrimes 100 = sumOfPrimesExact 100 :=
  machine_arithmetic_agrees 100 (by decide) (by decide)

/-- C9: the program entry of `hello.go` takes no input and writes exactly two lines to
standard output, the greeting and then the fixed text filled with `sumOfPrimes(100)`. -/
theorem main_prints_two_lines :
    main = { stdout := "Hello, World!\n2 + 3 + 5 + 7 + 11 + ... + 83 + 89 + 97 == 1060\n",
             fault := none } ∧
      main.stdout = "Hello, World!" ++ "\n" ++
        "2 + 3 + 5 + 7 + 11 + ... + 83 + 89 + 97 == 1060" ++ "\n" := by
  refine ⟨by rfl, by rfl⟩

end Hello

namespace Embedding

/-- C10: the loader fails fast.  A failed read ends the run with a message starting
"error reading wasm: " before any instantiation; a failed instantiation ends it with
"error instantiating wasm: " before any call; a failed call of `sum_of_squares` on 100 ends it
with "error calling wasm library: " and nothing printed; a result is printed exactly when all
three steps succeed; and the steps performed are an initial part of read, instantiate, call,
so none is retried. -/
theorem loader_fails_fast {Bytes Inst Value : Type} (w : Wasmer Bytes Inst Value) :
    (∀ e, w.readBytes "my_lib.wasm" = .error e →
      main w = [.readBytes "my_lib.wasm", .fatal ("error reading wasm: " ++ e)]) ∧
    (∀ b e, w.readBytes "my_lib.wasm" = .ok b → w.newInstance b = .error e →
      main w = [.readBytes "my_lib.wasm", .newInstance,
        .fatal ("error instantiating wasm: " ++ e)]) ∧
    (∀ b i f e, w.readBytes "my_lib.wasm" = .ok b → w.newInstance b = .ok i →
      w.exports i "sum_of_squares" = some f → f 100 = .error e →
      main w = [.readBytes "my_lib.wasm", .newInstance, .call "sum_of_squares" 100,
        .fatal ("error calling wasm library: " ++ e)]) ∧
    ((∃ text, Event.println text ∈ main w) ↔
      ∃ b i f v, w.readBytes "my_lib.wasm" = .ok b ∧ w.newInstance b = .ok i ∧
        w.exports i "sum_of_squares" = some f ∧ f 100 = .ok v) ∧
    (∀ b i f v, w.readBytes "my_lib.wasm" = .ok b → w.newInstance b = .ok i →
      w.exports i "sum_of_squares" = some f → f 100 = .ok v →
      main w = [.readBytes "my_lib.wasm", .newInstance, .call "sum_of_squares" 100,
        .println (w.render v), .close]) ∧
    (∃ k, (main w).filter Event.isStep =
      List.take k [.readBytes "my_lib.wasm", .newInstance, .call "sum_of_squares" 100]) := by
  refine ⟨?_, ?_, ?_, ?_, ?_, ?_⟩
  · intro e he
    simp only [main, he]
  · intro b e hb he
    simp only [main, hb, he]
  · intro b i f e hb hi hf he
    simp only [main, hb, hi, hf, he]
  · constructor
    · rintro ⟨text, hmem⟩
      cases hb : w.readBytes "my_lib.wasm" with
      | error e => simp [main, hb] at hmem
      | ok b =>
        cases hi : w.newInstance b with
        | error e => simp [main, hb, hi] at hmem
        | ok i =>
          cases hf : w.exports i "sum_of_squares" with
          | none => simp [main, hb, hi, hf] at hmem
          | some f =>
            cases hv : f 100 with
            | error e => simp [main, hb, hi, hf, hv] at hmem
            | ok v => exact ⟨b, i, f, v, rfl, hi, hf, hv⟩
    · rintro ⟨b, i, f, v, hb, hi, hf, hv⟩
      exact ⟨w.render v, by simp [main, hb, hi, hf, hv]⟩
  · intro b i f v hb hi hf hv
    simp only [main, hb, hi, hf, hv]
  · cases hb : w.readBytes "my_lib.wasm" with
    | error e => exact ⟨1, by simp [main, hb, Event.isStep]⟩
    | ok b =>
      cases hi : w.newInstance b with
      | error e => exact ⟨2, by simp [main, hb, hi, Event.isStep]⟩
      | ok i =>
        cases hf : w.exports i "sum_of_squares" with
        | none => exact ⟨2, by simp [main, hb, hi, hf, Event.isStep]⟩
        | some f =>
          cases hv : f 100 with
          | error e => exact ⟨3, by simp [main, hb, hi, hf, hv, Event.isStep]⟩
          | ok v => exact ⟨3, by simp [main, hb, hi, hf, hv, Event.isStep]⟩

/-- Instances of the loader at a binding whose read fails and at one that works. -/
theorem loader_fails_fast_witness :
    main unreadable = [.readBytes "my_lib.wasm",
        .fatal ("error reading wasm: " ++ "open my_lib.wasm: no such file or directory")] ∧
      main working = [.readBytes "my_lib.wasm", .newInstance, .call "sum_of_squares" 100,
        .println "338350", .close] :=
  ⟨(loader_fails_fast unreadable).1 _ rfl,
   (loader_fails_fast working).2.2.2.2.1 () () _ 338350 rfl rfl rfl rfl⟩

end Embedding

namespace Hello

/-! ## Calls on a shared heap -/

theorem call_value (h : Heap) (hi : Int) : (call h hi).1 = sumOfPrimes hi := by
  unfold call sumOfPrimes sumOfPrimes64
  rw [run_on_heap]
  cases sumOfPrimesRun .wrap (budget hi) hi with
  | error e => rfl
  | ok r => rfl

/-- C11: `sumOfPrimes` is deterministic and free of hidden state.  Run on any two heaps, in
any integer mode and with any budget, the function gives the same outcome; a call leaves
every slice of the heap as it was and adds only its own table of length `bound`; so in a
sequence of calls on one heap the second invocation with a bound returns what the first
returned, whatever calls were made in between, and a value is returned for every
non-negative bound whose table can be allocated. -/
theorem calls_are_independent (bound : Int) (h1 h2 : Heap) (between : List Int) :
    (∀ (m : IntMode) (fuel : Nat),
      (sumOfPrimesOn m fuel h1 bound).map Prod.fst =
        (sumOfPrimesOn m fuel h2 bound).map Prod.fst) ∧
    (∀ (m : IntMode) (fuel : Nat) (v : Int) (h' : Heap),
      sumOfPrimesOn m fuel h1 bound = .ok (v, h') →
        ∃ table : Array Bool, h'.slices = h1.slices ++ [table] ∧ (table.size : Int) = bound) ∧
    (call (callAll (call h1 bound).2 between) bound).1 = (call h1 bound).1 ∧
    (call h1 bound).1 = sumOfPrimes bound ∧
    (0 ≤ bound → bound ≤ (maxAlloc : Int) →
      (call h1 bound).1 = .ok (wrap64 ((primeSumBelow bound.toNat : Nat) : Int))) := by
  refine ⟨fun m fuel => ?_, fun m fuel v h' hrun => ?_, ?_, call_value h1 bound,
    fun h0 hle => ?_⟩
  · rw [run_on_heap, run_on_heap]
    cases sumOfPrimesRun m fuel bound with
    | error e => rfl
    | ok r => rfl
  · rw [run_on_heap] at hrun
    cases hr : sumOfPrimesRun m fuel bound with
    | error e =>
      rw [hr] at hrun
      exact absurd hrun (by simp [map_error])
    | ok r =>
      obtain ⟨w, t⟩ := r
      rw [hr, map_ok] at hrun
      injection hrun with hrun
      injection hrun with _ hh
      refine ⟨t.cells, ?_, (run_log m fuel bound w t hr).2.1⟩
      rw [← hh]
  · rw [call_value, call_value]
  · obtain ⟨n, rfl⟩ := Int.eq_ofNat_of_zero_le h0
    rw [call_value, sumOfPrimes_nat n (nat_le_maxAlloc hle), Int.toNat_ofNat]

/-- Instance of the independence of calls: bound 10 on a heap that holds a slice, called
again after calls on 100 and -1. -/
theorem calls_are_independent_witness :
    (call (callAll (call ⟨[#[true, false]]⟩ 10).2 [100, -1]) 10).1 =
        (call ⟨[#[true, false]]⟩ 10).1 ∧
      (call ⟨[#[true, false]]⟩ 10).1 = sumOfPrimes 10 :=
  ⟨(calls_are_independent 10 ⟨[#[true, false]]⟩ ⟨[]⟩ [100, -1]).2.2.1,
   (calls_are_independent 10 ⟨[#[true, false]]⟩ ⟨[]⟩ [100, -1]).2.2.2.1⟩

/-! ## Properties of the phases -/

/-- C12: for every non-negative bound whose table can be allocated the sieve phase finishes,
and then for every index `i` with `2 ≤ i < bound` the flag `arr[i]` is true exactly when `i`
is prime; the final loop returns the 64-bit sum of the indices of `[2, bound)` whose flag is
true, and these are exactly the primes below `bound`.  Above the allocation limit the sieve
phase is never reached. -/
theorem sieve_flags_mark_primes (bound : Int) (h : 0 ≤ bound) :
    (bound ≤ (maxAlloc : Int) →
      ∃ t t', sievePhase .wrap (budget bound) bound = .ok t ∧
        (∀ i : Nat, 2 ≤ i → (i : Int) < bound → (t.flag i = true ↔ Nat.Prime i)) ∧
        sumLoop .wrap bound (budget bound) 2 0 t =
          .ok (wrap64 (∑ i in (Finset.Ico 2 bound.toNat).filter (fun i => t.flag i = true),
            (i : Int)), t') ∧
        sumOfPrimesRun .wrap (budget bound) bound =
          .ok (wrap64 (∑ i in (Finset.Ico 2 bound.toNat).filter (fun i => t.flag i = true),
            (i : Int)), t') ∧
        (Finset.Ico 2 bound.toNat).filter (fun i => t.flag i = true) =
          (Finset.range bound.toNat).filter Nat.Prime) ∧
    ((maxAlloc : Int) < bound →
      sievePhase .wrap (budget bound) bound = .error (.lenOutOfRange bound)) := by
  refine ⟨fun hle => ?_, fun hlt => (sievePhase_large _ _ _ hlt).2⟩
  obtain ⟨n, rfl⟩ := Int.eq_ofNat_of_zero_le h
  have hn := nat_le_maxAlloc hle
  obtain ⟨t0, t, _, _, e, _, s, f⟩ := sievePhase_spec n (n + 1) hn (Nat.lt_succ_self n)
  obtain ⟨t', e', _⟩ := sumLoop_spec n (n + 1) 2 0 t s (by omega)
  rw [budget_nat, Int.toNat_ofNat]
  have e64 : sievePhase .wrap (n + 1) n = .ok t := by rw [sievePhase_mode, e]
  have hsum : sumLoop .wrap n (n + 1) 2 0 t =
      .ok (wrap64 (∑ i in (Finset.Ico 2 n).filter (fun i => t.flag i = true), (i : Int)), t') := by
    have e2 : sumLoop .exact n (n + 1) 2 0 t =
        .ok (0 + ∑ j in Finset.Ico 2 n, (if t.flag j then (j : Int) else 0), t') := by
      exact_mod_cast e'
    have hw := sumLoop_wrap (n : Int) (by rw [← maxAlloc_eq]; exact hle) (n + 1) 2 0 t
    rw [wrap64_zero, e2, map_ok, zero_add] at hw
    rw [hw, Finset.sum_filter]
  refine ⟨t, t', e64, fun i h2 hi => flag_true_iff_prime f i h2 (by exact_mod_cast hi), hsum,
    ?_, ?_⟩
  · rw [run_eq_sievePhase, e64, ok_bind, hsum]
  · ext i
    simp only [Finset.mem_filter, Finset.mem_Ico, Finset.mem_range]
    constructor
    · rintro ⟨⟨h2, hi⟩, hfl⟩
      exact ⟨hi, (flag_true_iff_prime f i h2 hi).1 hfl⟩
    · rintro ⟨hi, hp⟩
      exact ⟨⟨hp.two_le, hi⟩, (flag_true_iff_prime f i hp.two_le hi).2 hp⟩

/-- Instance of the sieve characterisation at bound 30. -/
theorem sieve_flags_mark_primes_witness :
    ∃ t t', sievePhase .wrap (budget 30) 30 = .ok t ∧
      (∀ i : Nat, 2 ≤ i → (i : Int) < 30 → (t.flag i = true ↔ Nat.Prime i)) ∧
      sumLoop .wrap 30 (budget 30) 2 0 t =
        .ok (wrap64 (∑ i in (Finset.Ico 2 (30 : Int).toNat).filter (fun i => t.flag i = true),
          (i : Int)), t') ∧
      sumOfPrimesRun .wrap (budget 30) 30 =
        .ok (wrap64 (∑ i in (Finset.Ico 2 (30 : Int).toNat).filter (fun i => t.flag i = true),
          (i : Int)), t') ∧
      (Finset.Ico 2 (30 : Int).toNat).filter (fun i => t.flag i = true) =
        (Finset.range (30 : Int).toNat).filter Nat.Prime :=
  (sieve_flags_mark_primes 30 (by decide)).1 (by unfold maxAlloc; decide)

end Hello

namespace Hello

/-! ## The execution of the sieve loops, access by access -/

/-- C13, as stated, fails at the bound `2^62` and the composite 4: the table cannot be
allocated, so the run panics before the initialisation and no pass of the outer loop is
ever made. -/
theorem no_pass_at_huge_bound :
    (0 : Int) ≤ 4611686018427387904 ∧ 2 ≤ 4 ∧ ((4 : Nat) : Int) < 4611686018427387904 ∧
      ¬ Nat.Prime 4 ∧
      initPhase .wrap (budget 4611686018427387904) 4611686018427387904 =
        .error (.lenOutOfRange 4611686018427387904) ∧
      ∀ t, sievePhase .wrap (budget 4611686018427387904) 4611686018427387904 ≠ .ok t := by
  have hl := sievePhase_large .wrap (budget 4611686018427387904) 4611686018427387904
    (by unfold maxAlloc; decide)
  refine ⟨by decide, by decide, by decide, by decide, hl.1, fun t ht => ?_⟩
  rw [hl.2] at ht
  exact absurd ht (by simp)

/-- C13, amended: for every bound with `0 ≤ bound ≤ 2^48` (a table the runtime allocates)
and every composite `c` with `2 ≤ c < bound`, the smallest prime factor `q` of `c` has
`q * q ≤ c < bound`; the outer loop reads `arr[q]` at a point where `arr[q]` and `arr[c]`
are still true, `arr[c]` is written during the pass for `q` and during no pass for a smaller
candidate, and it is cleared when the sieve loops have finished. -/
theorem composite_cleared_by_least_factor (bound : Int) (h : 0 ≤ bound)
    (hb : bound ≤ (maxAlloc : Int)) (c : Nat) (h2 : 2 ≤ c) (hc : (c : Int) < bound)
    (hcomp : ¬ Nat.Prime c) :
    (Nat.minFac c).Prime ∧ Nat.minFac c ∣ c ∧
      (∀ r : Nat, r.Prime → r ∣ c → Nat.minFac c ≤ r) ∧
      Nat.minFac c * Nat.minFac c ≤ c ∧
      ∃ (t0 t : Table) (new : List Access),
        initPhase .wrap (budget bound) bound = .ok t0 ∧
        sievePhase .wrap (budget bound) bound = .ok t ∧
        t.log = new.reverse ++ t0.log ∧
        (∃ k, new[k]? = some (Access.read (Nat.minFac c : Int)) ∧
          (replay t0.cells (new.take k))[Nat.minFac c]? = some true ∧
          (replay t0.cells (new.take k))[c]? = some true) ∧
        (c : Int) ∈ passWrites (Nat.minFac c : Int) new ∧
        (∀ p : Int, p < (Nat.minFac c : Int) → (c : Int) ∉ passWrites p new) ∧
        t.cells[c]? = some false := by
  obtain ⟨n, rfl⟩ := Int.eq_ofNat_of_zero_le h
  have hn := nat_le_maxAlloc hb
  have hcn : c < n := by exact_mod_cast hc
  have hq : (Nat.minFac c).Prime := Nat.minFac_prime (by omega)
  have hqd : Nat.minFac c ∣ c := Nat.minFac_dvd c
  have hqq : Nat.minFac c * Nat.minFac c ≤ c := by
    have := Nat.minFac_sq_le_self (by omega : 0 < c) hcomp
    simpa [sq] using this
  have hqn : Nat.minFac c < n := lt_of_le_of_lt (Nat.le_mul_self _) (lt_of_le_of_lt hqq hcn)
  obtain ⟨t0, t, initAccs, new, e0, e, _, _, _, l, cl, s0, s, f, _, Q, R⟩ :=
    sievePhase_trace n hn
  obtain ⟨k, g, invq, pw⟩ := Q (Nat.minFac c) hq.two_le (lt_of_le_of_lt hqq hcn)
  have hsz : (replay t0.cells (new.take k)).size = n := by rw [replay_size, s0]
  have hflq : (replay t0.cells (new.take k)).getD (Nat.minFac c) false = true := by
    have hi := invq.2 (Nat.minFac c) hqn
    by_contra hcon
    have hfalse : (replay t0.cells (new.take k)).getD (Nat.minFac c) false = false := by
      simpa using hcon
    obtain ⟨r, r1, r2, r3, _⟩ := hi.1 hfalse
    rcases (Nat.dvd_prime hq).1 r3 with h1 | h1
    · omega
    · omega
  have hflc : (replay t0.cells (new.take k)).getD c false = true := by
    have hi := invq.2 c hcn
    by_contra hcon
    have hfalse : (replay t0.cells (new.take k)).getD c false = false := by
      simpa using hcon
    obtain ⟨r, r1, r2, r3, _⟩ := hi.1 hfalse
    have := Nat.minFac_le_of_dvd r1 r3
    omega
  rw [budget_nat, initPhase_mode, sievePhase_mode]
  refine ⟨hq, hqd, fun r hr hrd => Nat.minFac_le_of_dvd hr.two_le hrd, hqq, t0, t, new, e0, e, l,
    ⟨k, g, getElem?_of_getD _ _ _ (by rw [hsz]; exact hqn) hflq,
      getElem?_of_getD _ _ _ (by rw [hsz]; exact hcn) hflc⟩,
    pw c hflq hqd hqq hcn, fun p hp hmem => ?_, ?_⟩
  · obtain ⟨rn, xn, h1, h2', h3, h4⟩ := R p (c : Int) hmem
    have hx : c = xn := by exact_mod_cast h2'
    subst hx
    subst h1
    have := Nat.minFac_le_of_dvd h3 h4
    have hlt : rn < Nat.minFac c := by exact_mod_cast hp
    omega
  · apply getElem?_of_getD _ _ _ (by rw [s]; exact hcn)
    exact (f c hcn).2 ⟨Nat.minFac c, hq.two_le, hqd, hqq⟩

/-- Instance at bound 50 and the composite 35, whose smallest prime factor is 5. -/
theorem composite_cleared_by_least_factor_witness :
    (Nat.minFac 35).Prime ∧ Nat.minFac 35 ∣ 35 ∧
      (∀ r : Nat, r.Prime → r ∣ 35 → Nat.minFac 35 ≤ r) ∧
      Nat.minFac 35 * Nat.minFac 35 ≤ 35 ∧
      ∃ (t0 t : Table) (new : List Access),
        initPhase .wrap (budget 50) 50 = .ok t0 ∧
        sievePhase .wrap (budget 50) 50 = .ok t ∧
        t.log = new.reverse ++ t0.log ∧
        (∃ k, new[k]? = some (Access.read (Nat.minFac 35 : Int)) ∧
          (replay t0.cells (new.take k))[Nat.minFac 35]? = some true ∧
          (replay t0.cells (new.take k))[35]? = some true) ∧
        ((35 : Nat) : Int) ∈ passWrites (Nat.minFac 35 : Int) new ∧
        (∀ p : Int, p < (Nat.minFac 35 : Int) → ((35 : Nat) : Int) ∉ passWrites p new) ∧
        t.cells[35]? = some false :=
  composite_cleared_by_least_factor 50 (by decide) (by unfold maxAlloc; decide) 35 (by decide)
    (by decide) (by decide)

/-- C14: during the sieve loops the table only loses flags.  For every non-negative bound
whose table can be allocated, the accesses of the sieve loops never write `true`, and for
any two points `s ≤ k` of their execution and any index `i`, if `arr[i]` is false at `s`
then it is false at `k`; above the allocation limit the run panics before the sieve loops,
which then have no point of execution. -/
theorem cleared_flags_stay_cleared (bound : Int) (h : 0 ≤ bound) :
    (bound ≤ (maxAlloc : Int) →
      ∃ (t0 t : Table) (new : List Access),
        initPhase .wrap (budget bound) bound = .ok t0 ∧
        sievePhase .wrap (budget bound) bound = .ok t ∧
        t.log = new.reverse ++ t0.log ∧
        replay t0.cells (new.take 0) = t0.cells ∧
        replay t0.cells (new.take new.length) = t.cells ∧
        (∀ i v, Access.write i v ∈ new → v = false) ∧
        ∀ (s k i : Nat), s ≤ k →
          (replay t0.cells (new.take s))[i]? = some false →
          (replay t0.cells (new.take k))[i]? = some false) ∧
    ((maxAlloc : Int) < bound →
      initPhase .wrap (budget bound) bound = .error (.lenOutOfRange bound) ∧
      sievePhase .wrap (budget bound) bound = .error (.lenOutOfRange bound)) := by
  refine ⟨fun hle => ?_, fun hlt => sievePhase_large _ _ _ hlt⟩
  obtain ⟨n, rfl⟩ := Int.eq_ofNat_of_zero_le h
  obtain ⟨t0, t, initAccs, new, e0, e, _, _, _, l, cl, s0, s, f, sl, _, _⟩ :=
    sievePhase_trace n (nat_le_maxAlloc hle)
  have hw : ∀ i v, Access.write i v ∈ new → v = false := fun i v hm => (sl _ hm).1
  rw [budget_nat, initPhase_mode, sievePhase_mode]
  refine ⟨t0, t, new, e0, e, l, rfl, by rw [List.take_length, cl], hw, fun s k i hsk hs => ?_⟩
  rw [take_split new s k hsk, replay_append]
  apply replay_keeps_false _ _ _ i hs
  intro a ha j v hav
  subst hav
  exact hw j v (List.mem_of_mem_take (List.mem_of_mem_drop ha))

/-- Instance of the persistence of cleared flags at bound 20. -/
theorem cleared_flags_stay_cleared_witness :
    ∃ (t0 t : Table) (new : List Access),
      initPhase .wrap (budget 20) 20 = .ok t0 ∧
      sievePhase .wrap (budget 20) 20 = .ok t ∧
      t.log = new.reverse ++ t0.log ∧
      replay t0.cells (new.take 0) = t0.cells ∧
      replay t0.cells (new.take new.length) = t.cells ∧
      (∀ i v, Access.write i v ∈ new → v = false) ∧
      ∀ (s k i : Nat), s ≤ k →
        (replay t0.cells (new.take s))[i]? = some false →
        (replay t0.cells (new.take k))[i]? = some false :=
  (cleared_flags_stay_cleared 20 (by decide)).1 (by unfold maxAlloc; decide)

end Hello

namespace Hello

/-- C15: for every non-negative bound whose table can be allocated, the table has length
`bound` after the allocation and initialisation, after the sieve and at the end, no write or
read changes its length, and every access falls in `[0, bound)`; the sieve loops write only
`false` and only to indices from 4 on, so the flags of the indices 0 and 1 (where the table
has them) are still true after the sieve phase; the summation reads only indices from 2 on
and returns the 64-bit sum of the flagged indices of `[2, bound)`, so 0 and 1 add nothing.
Above the allocation limit the run panics before there is a table. -/
theorem low_indices_never_counted (bound : Int) (h : 0 ≤ bound) :
    (bound ≤ (maxAlloc : Int) →
      ∃ (t0 t r : Table) (v : Int) (initAccs sieveAccs sumAccs : List Access),
        initPhase .wrap (budget bound) bound = .ok t0 ∧
        sievePhase .wrap (budget bound) bound = .ok t ∧
        sumOfPrimesRun .wrap (budget bound) bound = .ok (v, r) ∧
        (t0.cells.size : Int) = bound ∧ (t.cells.size : Int) = bound ∧
        (r.cells.size : Int) = bound ∧
        t0.log.reverse = initAccs ∧
        t.log.reverse = initAccs ++ sieveAccs ∧
        r.log.reverse = initAccs ++ sieveAccs ++ sumAccs ∧
        replay (mkArray bound.toNat false) initAccs = t0.cells ∧
        replay (mkArray bound.toNat false) (initAccs ++ sieveAccs) = t.cells ∧
        replay (mkArray bound.toNat false) r.log.reverse = r.cells ∧
        (∀ a, a ∈ r.log.reverse → 0 ≤ a.idx ∧ a.idx < bound) ∧
        (∀ a, a ∈ initAccs → ∃ i, a = Access.write i true) ∧
        (∀ i w, Access.write i w ∈ sieveAccs → w = false ∧ 4 ≤ i) ∧
        (∀ a, a ∈ sumAccs → ∃ i, a = Access.read i ∧ 2 ≤ i) ∧
        (∀ i : Nat, i < 2 → (i : Int) < bound → t.cells[i]? = some true) ∧
        v = wrap64 (∑ i in (Finset.Ico 2 bound.toNat).filter (fun i => t.flag i = true),
          (i : Int))) ∧
    (∀ (t t' : Table) (i : Int) (w : Bool), store t i w = .ok t' →
      t'.cells.size = t.cells.size) ∧
    (∀ (t t' : Table) (i : Int) (b : Bool), load t i = .ok (b, t') → t'.cells = t.cells) ∧
    ((maxAlloc : Int) < bound →
      sumOfPrimesRun .wrap (budget bound) bound = .error (.lenOutOfRange bound)) := by
  refine ⟨fun hle => ?_, fun t t' i w hs => (store_inv hs).1, fun t t' i b hl => (load_inv hl).1,
    fun hlt => run_large _ _ _ hlt⟩
  obtain ⟨n, rfl⟩ := Int.eq_ofNat_of_zero_le h
  have hn := nat_le_maxAlloc hle
  obtain ⟨t0, t, initAccs, new, e0, e, l0, c0, w0, l, cl, s0, s, f, sl, _, _⟩ :=
    sievePhase_trace n hn
  obtain ⟨v, r, sumAccs, es, ls, cs, rs⟩ := sumLoop_trace n (n + 1) 2 0 t s (by omega)
  obtain ⟨r', es', _⟩ := sumLoop_spec n (n + 1) 2 0 t s (by omega)
  have es2 : sumLoop .exact n (n + 1) 2 0 t = .ok (v, r) := by exact_mod_cast es
  have hv : v = ∑ i in (Finset.Ico 2 n).filter (fun i => t.flag i = true), (i : Int) := by
    have e3 : sumLoop .exact n (n + 1) 2 0 t =
        .ok (0 + ∑ j in Finset.Ico 2 n, (if t.flag j then (j : Int) else 0), r') := by
      exact_mod_cast es'
    rw [es2] at e3
    injection e3 with h3
    injection h3 with h4 _
    rw [h4, zero_add, Finset.sum_filter]
  have hrs : ∀ a, a ∈ sumAccs → ∃ j : Int, a = Access.read j ∧ (2 : Int) ≤ j := by
    intro a ha
    obtain ⟨j, hj, hle⟩ := rs a ha
    exact ⟨j, hj, by exact_mod_cast hle⟩
  have htlog : t.log.reverse = initAccs ++ new := by
    rw [l, l0]
    simp
  have hrlog : r.log.reverse = initAccs ++ new ++ sumAccs := by
    rw [ls, l, l0]
    simp
  have htc : replay (mkArray n false) (initAccs ++ new) = t.cells := by
    rw [replay_append, ← c0, cl]
  have hrc : replay (mkArray n false) r.log.reverse = r.cells := by
    rw [hrlog, replay_append, htc, replay_reads _ _ hrs, cs]
  have hexact : sumOfPrimesRun .exact (n + 1) n = .ok (v, r) := by
    rw [run_eq_sievePhase, e, ok_bind, es2]
  have hrun : sumOfPrimesRun .wrap (n + 1) n = .ok (wrap64 v, r) := by
    rw [run_wrap, hexact]
    rfl
  rw [budget_nat, Int.toNat_ofNat, initPhase_mode, sievePhase_mode]
  refine ⟨t0, t, r, wrap64 v, initAccs, new, sumAccs, e0, e, hrun, by exact_mod_cast s0,
    by exact_mod_cast s, by rw [cs]; exact_mod_cast s, by simp [l0], htlog, hrlog, c0.symm, htc,
    hrc, fun a ha => (run_log _ _ _ _ _ hrun).2.2 a (List.mem_reverse.1 ha), w0,
    fun i w hm => sl _ hm, hrs, fun i hi hin => ?_, by rw [hv]⟩
  have hin' : i < n := by exact_mod_cast hin
  apply getElem?_of_getD _ _ _ (by rw [s]; exact hin')
  cases hfl : t.flag i with
  | true => exact hfl
  | false =>
    obtain ⟨q, h1, _, h3⟩ := (f i hin').1 hfl
    have : 2 * 2 ≤ q * q := Nat.mul_le_mul h1 h1
    omega

/-- Instance of the statement on the low indices at bound 10. -/
theorem low_indices_never_counted_witness :
    ∃ (t0 t r : Table) (v : Int) (initAccs sieveAccs sumAccs : List Access),
      initPhase .wrap (budget 10) 10 = .ok t0 ∧
      sievePhase .wrap (budget 10) 10 = .ok t ∧
      sumOfPrimesRun .wrap (budget 10) 10 = .ok (v, r) ∧
      (t0.cells.size : Int) = 10 ∧ (t.cells.size : Int) = 10 ∧
      (r.cells.size : Int) = 10 ∧
      t0.log.reverse = initAccs ∧
      t.log.reverse = initAccs ++ sieveAccs ∧
      r.log.reverse = initAccs ++ sieveAccs ++ sumAccs ∧
      replay (mkArray (10 : Int).toNat false) initAccs = t0.cells ∧
      replay (mkArray (10 : Int).toNat false) (initAccs ++ sieveAccs) = t.cells ∧
      replay (mkArray (10 : Int).toNat false) r.log.reverse = r.cells ∧
      (∀ a, a ∈ r.log.reverse → 0 ≤ a.idx ∧ a.idx < 10) ∧
      (∀ a, a ∈ initAccs → ∃ i, a = Access.write i true) ∧
      (∀ i w, Access.write i w ∈ sieveAccs → w = false ∧ 4 ≤ i) ∧
      (∀ a, a ∈ sumAccs → ∃ i, a = Access.read i ∧ 2 ≤ i) ∧
      (∀ i : Nat, i < 2 → (i : Int) < 10 → t.cells[i]? = some true) ∧
      v = wrap64 (∑ i in (Finset.Ico 2 (10 : Int).toNat).filter (fun i => t.flag i = true),
        (i : Int)) :=
  (low_indices_never_counted 10 (by decide)).1 (by unfold maxAlloc; decide)

/-- C16: for every negative bound `sumOfPrimes` returns no value: the allocation of the
table fails before any loop runs (whatever the budget and the integer mode, even with no
budget at all), so in particular the result is not 0. -/
theorem negative_bound_faults (bound : Int) (h : bound < 0) :
    make bound = .error (.negativeLen bound) ∧
      (∀ (m : IntMode) (fuel : Nat), sumOfPrimesRun m fuel bound = .error (.negativeLen bound)) ∧
      sumOfPrimes bound = .error (.negativeLen bound) ∧
      (∀ v, sumOfPrimes bound ≠ .ok v) ∧
      accessesOf bound = .error (.negativeLen bound) := by
  have hmake : make bound = .error (.negativeLen bound) := by
    unfold make
    rw [if_pos h]
  have hrun : ∀ (m : IntMode) (fuel : Nat),
      sumOfPrimesRun m fuel bound = .error (.negativeLen bound) := by
    intro m fuel
    unfold sumOfPrimesRun
    rw [hmake]
    rfl
  have hsum : sumOfPrimes bound = .error (.negativeLen bound) := by
    unfold sumOfPrimes sumOfPrimes64
    rw [hrun]
    rfl
  refine ⟨hmake, hrun, hsum, fun v hv => ?_, ?_⟩
  · rw [hsum] at hv
    exact absurd hv (by simp)
  · unfold accessesOf
    rw [hrun]
    rfl

/-- Instance of the fault at bound -5. -/
theorem negative_bound_faults_witness :
    make (-5) = .error (.negativeLen (-5)) ∧
      (∀ (m : IntMode) (fuel : Nat), sumOfPrimesRun m fuel (-5) = .error (.negativeLen (-5))) ∧
      sumOfPrimes (-5) = .error (.negativeLen (-5)) ∧
      (∀ v, sumOfPrimes (-5) ≠ .ok v) ∧
      accessesOf (-5) = .error (.negativeLen (-5)) :=
  negative_bound_faults (-5) (by decide)

/-- C17, as stated, fails at `b = 2^48`, which is not prime: `sumOfPrimes(b)` returns a
value, but the table of length `b + 1` cannot be allocated, so `sumOfPrimes(b+1)` panics
and is not equal to it. -/
theorem step_fails_at_allocation_limit :
    (0 : Int) ≤ 281474976710656 ∧ ¬ Nat.Prime (281474976710656 : Int).toNat ∧
      (∃ v, sumOfPrimes 281474976710656 = .ok v) ∧
      sumOfPrimes (281474976710656 + 1) = .error (.lenOutOfRange (281474976710656 + 1)) ∧
      sumOfPrimes (281474976710656 + 1) ≠ sumOfPrimes 281474976710656 := by
  have h1 : sumOfPrimes 281474976710656 =
      .ok (wrap64 ((primeSumBelow 281474976710656 : Nat) : Int)) :=
    sumOfPrimes_nat 281474976710656 (le_refl _)
  have h2 : sumOfPrimes (281474976710656 + 1) = .error (.lenOutOfRange (281474976710656 + 1)) :=
    sumOfPrimes_large _ (by unfold maxAlloc; decide)
  refine ⟨by decide, ?_, ⟨_, h1⟩, h2, ?_⟩
  · have : (281474976710656 : Int).toNat = 281474976710656 := rfl
    rw [this]
    norm_num
  · rw [h1, h2]
    exact fun hcon => absurd hcon (by simp)

/-- C17, amended: the step equation holds where the sum cannot overflow: for every `b` with
`0 ≤ b` and `b + 1 ≤ 2^32`, `sumOfPrimes(b+1)` is `sumOfPrimes(b) + b` when `b` is prime
and `sumOfPrimes(b)` when it is not; for `b + 1 ≤ 2^48` the same holds with the sum
wrapped into the signed 64-bit range. -/
theorem sumOfPrimes_step (b : Int) (h : 0 ≤ b) :
    (b + 1 ≤ 2 ^ 32 → ∃ v, sumOfPrimes b = .ok v ∧
      sumOfPrimes (b + 1) = .ok (if Nat.Prime b.toNat then v + b else v)) ∧
    (b + 1 ≤ 2 ^ 48 → ∃ v, sumOfPrimes b = .ok v ∧
      sumOfPrimes (b + 1) = .ok (if Nat.Prime b.toNat then wrap64 (v + b) else v)) := by
  obtain ⟨n, rfl⟩ := Int.eq_ofNat_of_zero_le h
  have hcast : (n : Int) + 1 = ((n + 1 : Nat) : Int) := by push_cast; rfl
  rw [Int.toNat_ofNat, hcast]
  refine ⟨fun hle => ?_, fun hle => ?_⟩
  · have hn : n + 1 ≤ 4294967296 := by norm_num at hle; exact_mod_cast hle
    refine ⟨_, sumOfPrimes_below_overflow n (by omega), ?_⟩
    rw [sumOfPrimes_below_overflow (n + 1) hn, primeSumBelow_succ]
    by_cases hp : Nat.Prime n
    · rw [if_pos hp, if_pos hp]
      push_cast
      rfl
    · rw [if_neg hp, if_neg hp, add_zero]
  · have hn : n + 1 ≤ maxAlloc := by unfold maxAlloc; norm_num at hle; exact_mod_cast hle
    refine ⟨_, sumOfPrimes_nat n (by omega), ?_⟩
    rw [sumOfPrimes_nat (n + 1) hn, primeSumBelow_succ]
    by_cases hp : Nat.Prime n
    · rw [if_pos hp, if_pos hp, wrap64_add]
      push_cast
      rfl
    · rw [if_neg hp, if_neg hp, add_zero]

/-- Instance of the step equation at the prime bound 7. -/
theorem sumOfPrimes_step_witness :
    ∃ v, sumOfPrimes 7 = .ok v ∧
      sumOfPrimes (7 + 1) = .ok (if Nat.Prime (7 : Int).toNat then v + 7 else v) :=
  (sumOfPrimes_step 7 (by decide)).1 (by decide)

end Hello

namespace Hello

/-- C18: the skip of cleared candidates is a pure optimisation.  For every non-negative
bound the sieve as written and the naive sieve, which runs the marking loop for every
`p ≥ 2` with `p*p < bound`, end in the same way: with tables of the same cells and, after
the summation, the same 64-bit sum when the table can be allocated, and with the same panic
of `make` when it cannot. -/
theorem skip_is_pure_optimisation (bound : Int) (h : 0 ≤ bound) :
    (sievePhaseNaive .wrap (budget bound) bound).map (fun t => t.cells) =
      (sievePhase .wrap (budget bound) bound).map (fun t => t.cells) ∧
    (sumOfPrimesNaiveRun .wrap (budget bound) bound).map Prod.fst =
      (sumOfPrimesRun .wrap (budget bound) bound).map Prod.fst ∧
    (sumOfPrimesNaiveRun .wrap (budget bound) bound).map Prod.fst = sumOfPrimes bound ∧
    (bound ≤ (maxAlloc : Int) →
      ∃ t tn v r rn, sievePhase .wrap (budget bound) bound = .ok t ∧
        sievePhaseNaive .wrap (budget bound) bound = .ok tn ∧ tn.cells = t.cells ∧
        sumOfPrimesRun .wrap (budget bound) bound = .ok (v, r) ∧
        sumOfPrimesNaiveRun .wrap (budget bound) bound = .ok (v, rn) ∧ rn.cells = r.cells ∧
        v = wrap64 ((primeSumBelow bound.toNat : Nat) : Int)) := by
  have hsmall : bound ≤ (maxAlloc : Int) →
      ∃ t tn v r rn, sievePhase .wrap (budget bound) bound = .ok t ∧
        sievePhaseNaive .wrap (budget bound) bound = .ok tn ∧ tn.cells = t.cells ∧
        sumOfPrimesRun .wrap (budget bound) bound = .ok (v, r) ∧
        sumOfPrimesNaiveRun .wrap (budget bound) bound = .ok (v, rn) ∧ rn.cells = r.cells ∧
        v = wrap64 ((primeSumBelow bound.toNat : Nat) : Int) := by
    intro hle
    obtain ⟨n, rfl⟩ := Int.eq_ofNat_of_zero_le h
    have hn := nat_le_maxAlloc hle
    obtain ⟨t0, t, e0, _, e, inv0, s, f⟩ := sievePhase_spec n (n + 1) hn (Nat.lt_succ_self n)
    obtain ⟨tn, en, sn, fn⟩ :=
      sieveLoopNaive_spec n (n + 1) (Nat.lt_succ_self n) (n + 1) 2 t0 (le_refl 2) inv0 (by omega)
    have en' : sieveLoopNaive .exact n (n + 1) (n + 1) 2 t0 = .ok tn := by exact_mod_cast en
    have hcells : tn.cells = t.cells := by
      apply cells_eq_of_flags sn s
      intro j hj
      have h1 := f j hj
      have h2 := fn j hj
      cases hfa : tn.flag j <;> cases hfb : t.flag j <;> simp_all
    obtain ⟨v, r, rn, es, esn, c, cn⟩ :=
      sumLoop_congr n (n + 1) t tn s hcells (Nat.lt_succ_self n)
    obtain ⟨t3, hrun, _⟩ := run_spec n (n + 1) hn (Nat.lt_succ_self n)
    have hrun2 : sumOfPrimesRun .exact (n + 1) n = .ok (v, r) := by
      rw [run_eq_sievePhase, e, ok_bind, es]
    have hv : v = ((primeSumBelow n : Nat) : Int) := by
      rw [hrun] at hrun2
      injection hrun2 with h3
      injection h3 with h4 _
      exact h4.symm
    have henx : sievePhaseNaive .exact (n + 1) n = .ok tn := by
      unfold sievePhaseNaive
      rw [e0, ok_bind, en']
    have hnaive : sumOfPrimesNaiveRun .exact (n + 1) n = .ok (v, rn) := by
      unfold sumOfPrimesNaiveRun
      rw [henx, ok_bind, esn]
    rw [budget_nat, Int.toNat_ofNat]
    refine ⟨t, tn, wrap64 v, r, rn, by rw [sievePhase_mode, e],
      by rw [sievePhaseNaive_mode, henx], hcells, ?_, ?_, by rw [cn, c], by rw [hv]⟩
    · rw [run_wrap, hrun2]
      rfl
    · rw [naiveRun_wrap, hnaive]
      rfl
  have hall : (sievePhaseNaive .wrap (budget bound) bound).map (fun t => t.cells) =
        (sievePhase .wrap (budget bound) bound).map (fun t => t.cells) ∧
      (sumOfPrimesNaiveRun .wrap (budget bound) bound).map Prod.fst =
        (sumOfPrimesRun .wrap (budget bound) bound).map Prod.fst := by
    by_cases hle : bound ≤ (maxAlloc : Int)
    · obtain ⟨t, tn, v, r, rn, e1, e2, hc, e3, e4, _, _⟩ := hsmall hle
      rw [e1, e2, e3, e4]
      exact ⟨by rw [map_ok, map_ok, hc], rfl⟩
    · have hlt : (maxAlloc : Int) < bound := by omega
      have hi := (sievePhase_large .wrap (budget bound) bound hlt).1
      have h1 : sievePhaseNaive .wrap (budget bound) bound = .error (.lenOutOfRange bound) := by
        unfold sievePhaseNaive
        rw [hi]
        rfl
      have h2 : sumOfPrimesNaiveRun .wrap (budget bound) bound =
          .error (.lenOutOfRange bound) := by
        unfold sumOfPrimesNaiveRun
        rw [h1]
        rfl
      rw [h1, h2, (sievePhase_large .wrap (budget bound) bound hlt).2, run_large _ _ _ hlt]
      exact ⟨rfl, rfl⟩
  exact ⟨hall.1, hall.2, hall.2, hsmall⟩

/-- Instance of the equivalence at bound 50. -/
theorem skip_is_pure_optimisation_witness :
    ∃ t tn v r rn, sievePhase .wrap (budget 50) 50 = .ok t ∧
      sievePhaseNaive .wrap (budget 50) 50 = .ok tn ∧ tn.cells = t.cells ∧
      sumOfPrimesRun .wrap (budget 50) 50 = .ok (v, r) ∧
      sumOfPrimesNaiveRun .wrap (budget 50) 50 = .ok (v, rn) ∧ rn.cells = r.cells ∧
      v = wrap64 ((primeSumBelow (50 : Int).toNat : Nat) : Int) :=
  (skip_is_pure_optimisation 50 (by decide)).2.2.2 (by unfold maxAlloc; decide)

end Hello
